import Mathlib

/-!
Shallow embedding of the devnet-iteration detection pipeline of
`src/scripts/pqdevnet/detect_devnets.py`.

Timestamps are modelled as integer epoch seconds (`Int`), slots as `Int`
(the script does `int(float(val))`), and `duration_hours` as `ℚ`
(the script stores a Python float rounded to two decimals).
Python `timedelta(minutes=m)` becomes `60 * m` seconds,
`timedelta(seconds=1)` becomes `1`, `timedelta(minutes=5)` becomes `300`.
Pandas `sort_values` is modelled as a stable insertion sort on the same key,
`Series.unique` as first-occurrence deduplication, and Python `set` of
client names as `Finset String`.
-/

namespace Observatory

/-- One `lean_head_slot` sample row as assembled by `fetch_head_slot_history`
(lines 84-96): `job` label (client), `instance` label, timestamp, slot. -/
structure Sample where
  client : String
  instanceName : String
  timestamp : Int
  slot : Int
deriving DecidableEq, Repr

/-- One slot-reset record as appended by `detect_slot_resets_per_client`
(lines 125-131). -/
structure ResetEvent where
  client : String
  timestamp : Int
  new_slot : Int
  prev_slot : Int
  prev_timestamp : Int
deriving DecidableEq, Repr

/-- The running-cluster dict of `cluster_resets_across_clients`
(lines 156-161): `start`, `end`, client set, member resets in insertion
order. -/
structure Cluster where
  start : Int
  end_ : Int
  clients : Finset String
  resets : List ResetEvent
deriving DecidableEq

/-- The `DevnetIteration` dataclass (lines 36-47). -/
structure DevnetIteration where
  id : String
  start_time : Int
  end_time : Int
  duration_hours : ℚ
  start_slot : Int
  end_slot : Int
  clients : List String
  notes : String := ""
deriving DecidableEq, Repr

/-- `devnet_id_from_timestamp` (line 50): a deterministic id derived from the
start timestamp; the `strftime` rendering is abstracted as decimal seconds. -/
def devnet_id_from_timestamp (t : Int) : String :=
  "pqdevnet-" ++ toString t

/-- Python `round(x, 2)` on rationals: round half to even at two decimals. -/
def round2 (q : ℚ) : ℚ :=
  let x := q * 100
  let n := ⌊x⌋
  let fr := x - n
  let r : Int :=
    if fr < 1/2 then n
    else if 1/2 < fr then n + 1
    else if n % 2 = 0 then n else n + 1
  (r : ℚ) / 100

/-- Helper for `uniqueFirst`: drop every element already seen. -/
def uniqueFirstAux (seen : List String) : List String → List String
  | [] => []
  | a :: l =>
    if a ∈ seen then uniqueFirstAux seen l
    else a :: uniqueFirstAux (a :: seen) l

/-- First-occurrence deduplication, the order `pandas.Series.unique` keeps. -/
def uniqueFirst (l : List String) : List String :=
  uniqueFirstAux [] l

/-- Lexicographic code-point order on strings, the order Python and pandas
compare strings by. -/
def strLt (a b : String) : Prop :=
  List.Lex (· < ·) a.data b.data

instance : DecidableRel strLt := fun a b =>
  List.Lex.decidableRel _ a.data b.data

/-- Sort key of `df.sort_values(["client", "timestamp"])` (line 100). -/
def sampleLE (a b : Sample) : Prop :=
  strLt a.client b.client ∨ (a.client = b.client ∧ a.timestamp ≤ b.timestamp)

instance : DecidableRel sampleLE := fun a b =>
  decidable_of_iff (strLt a.client b.client ∨ (a.client = b.client ∧ a.timestamp ≤ b.timestamp))
    Iff.rfl

/-- Sort key of the per-client `sort_values("timestamp")` (line 117). -/
def sampleTsLE (a b : Sample) : Prop :=
  a.timestamp ≤ b.timestamp

instance : DecidableRel sampleTsLE := fun a b =>
  decidable_of_iff (a.timestamp ≤ b.timestamp) Iff.rfl

instance : IsTotal Sample sampleTsLE :=
  ⟨fun a b => le_total a.timestamp b.timestamp⟩

instance : IsTrans Sample sampleTsLE :=
  ⟨fun _ _ _ h1 h2 => le_trans h1 h2⟩

/-- Sort key of `resets_df.sort_values("timestamp")` (line 152). -/
def resetTsLE (a b : ResetEvent) : Prop :=
  a.timestamp ≤ b.timestamp

instance : DecidableRel resetTsLE := fun a b =>
  decidable_of_iff (a.timestamp ≤ b.timestamp) Iff.rfl

instance : IsTotal ResetEvent resetTsLE :=
  ⟨fun a b => le_total a.timestamp b.timestamp⟩

instance : IsTrans ResetEvent resetTsLE :=
  ⟨fun _ _ _ h1 h2 => le_trans h1 h2⟩

/-- Sort key of `sorted(clusters, key=lambda c: c["start"])` (line 206). -/
def clusterStartLE (a b : Cluster) : Prop :=
  a.start ≤ b.start

instance : DecidableRel clusterStartLE := fun a b =>
  decidable_of_iff (a.start ≤ b.start) Iff.rfl

instance : IsTotal Cluster clusterStartLE :=
  ⟨fun a b => le_total a.start b.start⟩

instance : IsTrans Cluster clusterStartLE :=
  ⟨fun _ _ _ h1 h2 => le_trans h1 h2⟩

/-- `Series.min` over a projection of a nonempty frame (`0` on the empty
frame, which the script never queries). -/
def foldlMinBy {α : Type} (f : α → Int) : List α → Int
  | [] => 0
  | a :: l => l.foldl (fun m x => min m (f x)) (f a)

/-- `Series.max` over a projection of a nonempty frame. -/
def foldlMaxBy {α : Type} (f : α → Int) : List α → Int
  | [] => 0
  | a :: l => l.foldl (fun m x => max m (f x)) (f a)

/-- The inner row loop of `detect_slot_resets_per_client` (lines 119-133):
the cursor `(prev_slot, prev_timestamp)` advances to every row, and a reset
is appended exactly when `row.slot < prev_slot - reset_threshold`. -/
def resets_scan (c : String) (reset_threshold : Int) :
    Int → Int → List Sample → List ResetEvent
  | _, _, [] => []
  | prevSlot, prevTs, s :: rest =>
    if s.slot < prevSlot - reset_threshold then
      ⟨c, s.timestamp, s.slot, prevSlot, prevTs⟩ ::
        resets_scan c reset_threshold s.slot s.timestamp rest
    else
      resets_scan c reset_threshold s.slot s.timestamp rest

/-- One client's pass of `detect_slot_resets_per_client`: filter the frame to
the client, sort by timestamp, then scan with the cursor primed on the first
row (`prev_slot is None` skips the first row's check). -/
def client_resets (df : List Sample) (reset_threshold : Int) (c : String) :
    List ResetEvent :=
  match List.insertionSort sampleTsLE (df.filter (fun s => decide (s.client = c))) with
  | [] => []
  | s :: rest => resets_scan c reset_threshold s.slot s.timestamp rest

/-- `detect_slot_resets_per_client` (lines 104-135): clients are visited in
`df["client"].unique()` (first-occurrence) order and their resets
concatenated. -/
def detect_slot_resets_per_client (df : List Sample) (reset_threshold : Int) :
    List ResetEvent :=
  (uniqueFirst (df.map (fun s => s.client))).flatMap (client_resets df reset_threshold)

/-- The fold of `cluster_resets_across_clients` over the sorted resets
(lines 163-183), carrying the emitted clusters and the current cluster.
On fold the client is added, the reset appended, and `end` extended to the
max; on a gap the current cluster is emitted only if its client set reaches
`min_clients`, and a fresh cluster starts at the new reset.  The final open
cluster is closed the same way. -/
def clusterGo (tol : Int) (min_clients : ℕ) (acc : List Cluster) (cur : Cluster) :
    List ResetEvent → List Cluster
  | [] => acc ++ (if min_clients ≤ cur.clients.card then [cur] else [])
  | r :: rest =>
    if r.timestamp - cur.end_ ≤ tol then
      clusterGo tol min_clients acc
        ⟨cur.start, max cur.end_ r.timestamp, insert r.client cur.clients,
          cur.resets ++ [r]⟩ rest
    else
      clusterGo tol min_clients
        (acc ++ (if min_clients ≤ cur.clients.card then [cur] else []))
        ⟨r.timestamp, r.timestamp, {r.client}, [r]⟩ rest

/-- `cluster_resets_across_clients` (lines 138-185): sort all resets by
timestamp, seed the current cluster from the first one, fold the rest. -/
def cluster_resets_across_clients (resets : List ResetEvent)
    (tolerance_minutes : Int) (min_clients : ℕ) : List Cluster :=
  match List.insertionSort resetTsLE resets with
  | [] => []
  | r :: rest =>
    clusterGo (60 * tolerance_minutes) min_clients []
      ⟨r.timestamp, r.timestamp, {r.client}, [r]⟩ rest

/-- `get_period_stats` (lines 209-217): min slot, max slot and the distinct
clients of the samples falling in the closed interval `[start, stop]`. -/
def get_period_stats (df : List Sample) (start stop : Int) :
    Int × Int × List String :=
  let period := df.filter (fun s => decide (start ≤ s.timestamp ∧ s.timestamp ≤ stop))
  if period.isEmpty then (0, 0, [])
  else (foldlMinBy (fun s => s.slot) period,
        foldlMaxBy (fun s => s.slot) period,
        uniqueFirst (period.map (fun s => s.client)))

/-- The per-cluster loop of `build_devnet_iterations` (lines 243-270): each
cluster starts an iteration ending one second before the next cluster's
start, or at the overall data end for the last one; an iteration whose
period holds no samples (empty client list) is dropped. -/
def clusters_to_iterations (df : List Sample) (data_end : Int) :
    List Cluster → List DevnetIteration
  | [] => []
  | c :: rest =>
    let istart := c.start
    let iend := match rest with
      | [] => data_end
      | c2 :: _ => c2.start - 1
    let stats := get_period_stats df istart iend
    let tail := clusters_to_iterations df data_end rest
    if stats.2.2.isEmpty then tail
    else
      { id := devnet_id_from_timestamp istart
        start_time := istart
        end_time := iend
        duration_hours := round2 (((iend - istart : Int) : ℚ) / 3600)
        start_slot := stats.1
        end_slot := stats.2.1
        clients := stats.2.2
        notes := "Detected from " ++ toString c.clients.card ++ " client resets" } :: tail

/-- `build_devnet_iterations` (lines 188-272): sort clusters by start, maybe
synthesize a leading "pre-existing" iteration when the data starts more than
5 minutes (300 s) before the first cluster, then emit one iteration per
cluster. -/
def build_devnet_iterations (df : List Sample) (clusters : List Cluster) :
    List DevnetIteration :=
  if df.isEmpty then []
  else
    let data_start := foldlMinBy (fun s => s.timestamp) df
    let data_end := foldlMaxBy (fun s => s.timestamp) df
    let cs := List.insertionSort clusterStartLE clusters
    let lead : List DevnetIteration :=
      match cs with
      | [] => []
      | c0 :: _ =>
        if data_start < c0.start - 300 then
          let stats := get_period_stats df data_start (c0.start - 1)
          if stats.2.2.isEmpty then []
          else
            [{ id := devnet_id_from_timestamp data_start
               start_time := data_start
               end_time := c0.start - 1
               duration_hours := round2 (((c0.start - data_start : Int) : ℚ) / 3600)
               start_slot := stats.1
               end_slot := stats.2.1
               clients := stats.2.2
               notes := "Pre-existing devnet (data starts before first detected reset)" }]
        else []
    lead ++ clusters_to_iterations df data_end cs

/-- `detect_devnets` (lines 275-337) after the fetch: the fetched frame is
the input sample list sorted by `(client, timestamp)`
(`fetch_head_slot_history`, line 100).  Empty data yields no iterations; an
empty cluster list collapses the whole observed range into one fallback
iteration; otherwise the iterations are built from the clusters. -/
def detect_devnets (samples : List Sample) (reset_threshold tolerance_minutes : Int)
    (min_clients : ℕ) : List DevnetIteration :=
  let df := List.insertionSort sampleLE samples
  if df.isEmpty then []
  else
    let resets := detect_slot_resets_per_client df reset_threshold
    let clusters := cluster_resets_across_clients resets tolerance_minutes min_clients
    if clusters.isEmpty then
      [{ id := devnet_id_from_timestamp (foldlMinBy (fun s => s.timestamp) df)
         start_time := foldlMinBy (fun s => s.timestamp) df
         end_time := foldlMaxBy (fun s => s.timestamp) df
         duration_hours := round2
           (((foldlMaxBy (fun s => s.timestamp) df
              - foldlMinBy (fun s => s.timestamp) df : Int) : ℚ) / 3600)
         start_slot := foldlMinBy (fun s => s.slot) df
         end_slot := foldlMaxBy (fun s => s.slot) df
         clients := uniqueFirst (df.map (fun s => s.client))
         notes := "Single iteration (no multi-client resets detected)" }]
    else build_devnet_iterations df clusters

/-- Sorting of client-name lists, for `sorted(set(...) | ...)` (line 379):
the non-strict companion of `strLt`. -/
def strLE (a b : String) : Prop := ¬ strLt b a

instance : DecidableRel strLE := fun a b =>
  @instDecidableNot (strLt b a) inferInstance

instance : IsTotal String strLE := by
  constructor
  intro a b
  by_cases h : strLt b a
  · exact Or.inr fun h2 => (List.Lex.isAsymm ((· < ·) : Char → Char → Prop)).asymm _ _ h h2
  · exact Or.inl h

instance : IsTrans String strLE := by
  constructor
  intro a b c h1 h2 h3
  rcases trichotomous_of (List.Lex ((· < ·) : Char → Char → Prop)) a.data b.data
    with hab | hab | hab
  · exact h2 (trans_of (List.Lex ((· < ·) : Char → Char → Prop)) h3 hab)
  · exact h2 (show List.Lex ((· < ·) : Char → Char → Prop) c.data b.data from hab ▸ h3)
  · exact h1 hab

/-- `augment_clients_from_containers` (lines 369-383).  The container query
`fetch_container_clients` is an external collaborator, modelled as an oracle
returning either a client list or an error; the Python body contains no
`try`/`except`, so an error raised by the query propagates out of the loop
(modelled by `Except.error`).  On success, line 379 merges
`sorted(set(iteration.clients) | container_clients)` and keeps it only when
it is strictly longer. -/
def augment_clients_from_containers
    (fetch : Int → Int → Except String (List String)) :
    List DevnetIteration → Except String (List DevnetIteration)
  | [] => .ok []
  | it :: rest =>
    match fetch it.start_time it.end_time with
    | .error e => .error e
    | .ok containers =>
      let merged := List.insertionSort strLE ((it.clients ++ containers).dedup)
      let it2 := if it.clients.length < merged.length then
          { it with clients := merged } else it
      match augment_clients_from_containers fetch rest with
      | .error e => .error e
      | .ok rest2 => .ok (it2 :: rest2)

/-- The duration filter of `main` (lines 456-462): when `--min-duration` is
positive, keep only iterations with `duration_hours >= min_duration / 60`. -/
def filter_min_duration (iterations : List DevnetIteration) (min_duration : Int) :
    List DevnetIteration :=
  if 0 < min_duration then
    iterations.filter (fun d => decide ((min_duration : ℚ) / 60 ≤ d.duration_hours))
  else iterations

/-- The consecutive `(previous sample, current sample)` pairs visited by the
reset-scan cursor of `detect_slot_resets_per_client`. -/
def consecPairs : List Sample → List (Sample × Sample)
  | [] => []
  | [_] => []
  | a :: b :: rest => (a, b) :: consecPairs (b :: rest)

/-- The closed intervals the per-cluster loop of `build_devnet_iterations`
carves out of boundary starts: each start runs to one second before the
next start, the last runs to the data end. -/
def adjacentIntervals (de : Int) : List Int → List (Int × Int)
  | [] => []
  | [s] => [(s, de)]
  | s :: s2 :: r => (s, s2 - 1) :: adjacentIntervals de (s2 :: r)

/-- Two clients whose only reset comes 60 s after the data starts: the first
boundary falls inside the 5-minute leading slack. -/
def exGap : List Sample :=
  [⟨"a", "i1", 0, 1000⟩, ⟨"a", "i1", 60, 0⟩, ⟨"b", "i2", 0, 1000⟩, ⟨"b", "i2", 60, 0⟩]

/-- Two clients resetting together at t = 1000 and t = 5000, with data from
t = 0: a leading iteration plus two cluster iterations. -/
def exTwo : List Sample :=
  [⟨"a", "i1", 0, 500⟩, ⟨"a", "i1", 1000, 10⟩, ⟨"a", "i1", 3000, 900⟩, ⟨"a", "i1", 5000, 20⟩,
   ⟨"b", "i2", 0, 500⟩, ⟨"b", "i2", 1000, 10⟩, ⟨"b", "i2", 3000, 900⟩, ⟨"b", "i2", 5000, 20⟩]

/-- Four resets at `t0, t0 + 0.5 tol, t0 + 1.0 tol, t0 + 1.5 tol` for
`tolerance_minutes = 10` (`tol = 600 s`): each within tolerance of its
predecessor, first and last 900 s apart. -/
def exChain : List ResetEvent :=
  [⟨"a", 0, 0, 500, -60⟩, ⟨"b", 300, 0, 500, -60⟩,
   ⟨"c", 600, 0, 500, -60⟩, ⟨"d", 900, 0, 500, -60⟩]

/-- The single cluster the chained example folds into. -/
def exChainCluster : Cluster :=
  ⟨0, 900, insert "d" (insert "c" (insert "b" {"a"})),
   [⟨"a", 0, 0, 500, -60⟩, ⟨"b", 300, 0, 500, -60⟩,
    ⟨"c", 600, 0, 500, -60⟩, ⟨"d", 900, 0, 500, -60⟩]⟩

/-- Two resets from two distinct clients 5 s apart: one cluster of exactly
two clients. -/
def exPair : List ResetEvent :=
  [⟨"a", 0, 0, 500, -60⟩, ⟨"b", 5, 0, 500, -60⟩]

/-- One client with increasing slots: no resets at all. -/
def exNoReset : List Sample :=
  [⟨"a", "i", 0, 5⟩, ⟨"a", "i", 60, 6⟩]

/-- A slot drop of exactly `reset_threshold` (200 to 100 with threshold
100): must not fire. -/
def exEqDrop : List Sample :=
  [⟨"a", "i", 0, 200⟩, ⟨"a", "i", 60, 100⟩]

/-- A drop to 0 (fires), a climb to 850, then a drop to 100 (fires against
the advanced cursor 850, not against 0). -/
def exCursor : List Sample :=
  [⟨"a", "i", 0, 1000⟩, ⟨"a", "i", 60, 0⟩, ⟨"a", "i", 120, 850⟩, ⟨"a", "i", 180, 100⟩]

/-- A container-inventory oracle that always fails. -/
def failFetch : Int → Int → Except String (List String) :=
  fun _ _ => .error "boom"

/-- A container-inventory oracle that always reports the client `zeam`. -/
def okFetch : Int → Int → Except String (List String) :=
  fun _ _ => .ok ["zeam"]

/-- A concrete finished iteration used in augmentation examples. -/
def exIterA : DevnetIteration :=
  { id := "pqdevnet-0", start_time := 0, end_time := 999, duration_hours := 1/4,
    start_slot := 0, end_slot := 50, clients := ["ream"], notes := "" }

/-- A second concrete finished iteration. -/
def exIterB : DevnetIteration :=
  { id := "pqdevnet-1000", start_time := 1000, end_time := 1999, duration_hours := 1/4,
    start_slot := 0, end_slot := 40, clients := ["zeam"], notes := "" }

/-- An iteration lasting exactly half an hour, sitting exactly on a
30-minute duration filter boundary. -/
def exIterD : DevnetIteration :=
  { id := "pqdevnet-2", start_time := 0, end_time := 1800, duration_hours := 1/2,
    start_slot := 0, end_slot := 9, clients := ["zeam"], notes := "" }

/-- Two samples that agree on every field detection reads — client,
timestamp, slot — and may differ in `instanceName`. -/
def agrees (a b : Sample) : Prop :=
  a.client = b.client ∧ a.timestamp = b.timestamp ∧ a.slot = b.slot

/-- A sample list and a copy of it that differs only in `instanceName`. -/
def exInstA : List Sample :=
  [⟨"a", "node-1", 0, 7⟩, ⟨"a", "node-2", 60, 9⟩]

/-- The copy of `exInstA` with other instance labels. -/
def exInstB : List Sample :=
  [⟨"a", "relabelled", 0, 7⟩, ⟨"a", "x", 60, 9⟩]

/-! ### Basic lemmas about the helper functions -/

theorem mem_uniqueFirstAux (a : String) :
    ∀ (l seen : List String), a ∈ uniqueFirstAux seen l ↔ (a ∈ l ∧ a ∉ seen) := by
  intro l
  induction l with
  | nil => intro seen; simp [uniqueFirstAux]
  | cons b rest ih =>
    intro seen
    by_cases hb : b ∈ seen
    · simp only [uniqueFirstAux, if_pos hb, ih, List.mem_cons]
      constructor
      · rintro ⟨h1, h2⟩
        exact ⟨Or.inr h1, h2⟩
      · rintro ⟨h1 | h1, h2⟩
        · exact absurd (h1 ▸ hb) h2
        · exact ⟨h1, h2⟩
    · simp only [uniqueFirstAux, if_neg hb, List.mem_cons, ih]
      constructor
      · rintro (rfl | ⟨h1, h2⟩)
        · exact ⟨Or.inl rfl, hb⟩
        · exact ⟨Or.inr h1, fun hs => h2 (Or.inr hs)⟩
      · rintro ⟨rfl | h1, h2⟩
        · exact Or.inl rfl
        · by_cases hab : a = b
          · exact Or.inl hab
          · exact Or.inr ⟨h1, by simp [hab, h2]⟩

theorem mem_uniqueFirst (a : String) (l : List String) :
    a ∈ uniqueFirst l ↔ a ∈ l := by
  simp [uniqueFirst, mem_uniqueFirstAux]

theorem uniqueFirst_ne_nil (l : List String) (h : l ≠ []) : uniqueFirst l ≠ [] := by
  match l with
  | b :: rest =>
    intro hc
    have : b ∈ uniqueFirst (b :: rest) := (mem_uniqueFirst b _).mpr (List.mem_cons_self b rest)
    rw [hc] at this
    exact List.not_mem_nil b this

theorem foldl_min_le_init {α : Type} (f : α → Int) :
    ∀ (l : List α) (init : Int), l.foldl (fun m x => min m (f x)) init ≤ init := by
  intro l
  induction l with
  | nil => intro init; simp
  | cons a rest ih =>
    intro init
    calc (a :: rest).foldl (fun m x => min m (f x)) init
        = rest.foldl (fun m x => min m (f x)) (min init (f a)) := rfl
      _ ≤ min init (f a) := ih _
      _ ≤ init := min_le_left _ _

theorem foldl_min_le_mem {α : Type} (f : α → Int) :
    ∀ (l : List α) (init : Int) (a : α), a ∈ l →
      l.foldl (fun m x => min m (f x)) init ≤ f a := by
  intro l
  induction l with
  | nil => intro init a ha; exact absurd ha (List.not_mem_nil a)
  | cons b rest ih =>
    intro init a ha
    rcases List.mem_cons.mp ha with rfl | ha
    · calc (a :: rest).foldl (fun m x => min m (f x)) init
          = rest.foldl (fun m x => min m (f x)) (min init (f a)) := rfl
        _ ≤ min init (f a) := foldl_min_le_init f rest _
        _ ≤ f a := min_le_right _ _
    · exact ih (min init (f b)) a ha

theorem foldl_min_attained {α : Type} (f : α → Int) :
    ∀ (l : List α) (init : Int),
      l.foldl (fun m x => min m (f x)) init = init ∨
      ∃ a ∈ l, l.foldl (fun m x => min m (f x)) init = f a := by
  intro l
  induction l with
  | nil => intro init; exact Or.inl rfl
  | cons b rest ih =>
    intro init
    rcases ih (min init (f b)) with h | ⟨a, ha, h⟩
    · rcases le_total init (f b) with hle | hle
      · exact Or.inl (h.trans (min_eq_left hle))
      · exact Or.inr ⟨b, List.mem_cons_self b rest, h.trans (min_eq_right hle)⟩
    · exact Or.inr ⟨a, List.mem_cons_of_mem b ha, h⟩

theorem foldlMinBy_le {α : Type} (f : α → Int) (l : List α) (a : α) (ha : a ∈ l) :
    foldlMinBy f l ≤ f a := by
  match l with
  | b :: rest =>
    rcases List.mem_cons.mp ha with rfl | ha
    · exact foldl_min_le_init f rest (f a)
    · exact foldl_min_le_mem f rest (f b) a ha

theorem foldlMinBy_attained {α : Type} (f : α → Int) (l : List α) (h : l ≠ []) :
    ∃ a ∈ l, foldlMinBy f l = f a := by
  match l with
  | b :: rest =>
    rcases foldl_min_attained f rest (f b) with h1 | ⟨a, ha, h1⟩
    · exact ⟨b, List.mem_cons_self b rest, h1⟩
    · exact ⟨a, List.mem_cons_of_mem b ha, h1⟩

theorem foldl_max_ge_init {α : Type} (f : α → Int) :
    ∀ (l : List α) (init : Int), init ≤ l.foldl (fun m x => max m (f x)) init := by
  intro l
  induction l with
  | nil => intro init; simp
  | cons a rest ih =>
    intro init
    calc init ≤ max init (f a) := le_max_left _ _
      _ ≤ rest.foldl (fun m x => max m (f x)) (max init (f a)) := ih _
      _ = (a :: rest).foldl (fun m x => max m (f x)) init := rfl

theorem foldl_max_ge_mem {α : Type} (f : α → Int) :
    ∀ (l : List α) (init : Int) (a : α), a ∈ l →
      f a ≤ l.foldl (fun m x => max m (f x)) init := by
  intro l
  induction l with
  | nil => intro init a ha; exact absurd ha (List.not_mem_nil a)
  | cons b rest ih =>
    intro init a ha
    rcases List.mem_cons.mp ha with rfl | ha
    · calc f a ≤ max init (f a) := le_max_right _ _
        _ ≤ rest.foldl (fun m x => max m (f x)) (max init (f a)) := foldl_max_ge_init f rest _
        _ = (a :: rest).foldl (fun m x => max m (f x)) init := rfl
    · exact ih (max init (f b)) a ha

theorem foldl_max_attained {α : Type} (f : α → Int) :
    ∀ (l : List α) (init : Int),
      l.foldl (fun m x => max m (f x)) init = init ∨
      ∃ a ∈ l, l.foldl (fun m x => max m (f x)) init = f a := by
  intro l
  induction l with
  | nil => intro init; exact Or.inl rfl
  | cons b rest ih =>
    intro init
    rcases ih (max init (f b)) with h | ⟨a, ha, h⟩
    · rcases le_total init (f b) with hle | hle
      · exact Or.inr ⟨b, List.mem_cons_self b rest, h.trans (max_eq_right hle)⟩
      · exact Or.inl (h.trans (max_eq_left hle))
    · exact Or.inr ⟨a, List.mem_cons_of_mem b ha, h⟩

theorem foldlMaxBy_ge {α : Type} (f : α → Int) (l : List α) (a : α) (ha : a ∈ l) :
    f a ≤ foldlMaxBy f l := by
  match l with
  | b :: rest =>
    rcases List.mem_cons.mp ha with rfl | ha
    · exact foldl_max_ge_init f rest (f a)
    · exact foldl_max_ge_mem f rest (f b) a ha

theorem foldlMaxBy_attained {α : Type} (f : α → Int) (l : List α) (h : l ≠ []) :
    ∃ a ∈ l, foldlMaxBy f l = f a := by
  match l with
  | b :: rest =>
    rcases foldl_max_attained f rest (f b) with h1 | ⟨a, ha, h1⟩
    · exact ⟨b, List.mem_cons_self b rest, h1⟩
    · exact ⟨a, List.mem_cons_of_mem b ha, h1⟩

theorem foldlMinBy_perm {α : Type} (f : α → Int) (l l2 : List α) (h : l.Perm l2) :
    foldlMinBy f l = foldlMinBy f l2 := by
  match l, l2 with
  | [], [] => rfl
  | [], b :: r2 => exact absurd h.symm (by simp)
  | a :: r, [] => exact absurd h (by simp)
  | a :: r, b :: r2 =>
    obtain ⟨x, hx, hfx⟩ := foldlMinBy_attained f (a :: r) (by simp)
    obtain ⟨y, hy, hfy⟩ := foldlMinBy_attained f (b :: r2) (by simp)
    have h1 : foldlMinBy f (a :: r) ≤ f y := foldlMinBy_le f _ y (h.mem_iff.mpr hy)
    have h2 : foldlMinBy f (b :: r2) ≤ f x := foldlMinBy_le f _ x (h.mem_iff.mp hx)
    omega

theorem foldlMaxBy_perm {α : Type} (f : α → Int) (l l2 : List α) (h : l.Perm l2) :
    foldlMaxBy f l = foldlMaxBy f l2 := by
  match l, l2 with
  | [], [] => rfl
  | [], b :: r2 => exact absurd h.symm (by simp)
  | a :: r, [] => exact absurd h (by simp)
  | a :: r, b :: r2 =>
    obtain ⟨x, hx, hfx⟩ := foldlMaxBy_attained f (a :: r) (by simp)
    obtain ⟨y, hy, hfy⟩ := foldlMaxBy_attained f (b :: r2) (by simp)
    have h1 : f y ≤ foldlMaxBy f (a :: r) := foldlMaxBy_ge f _ y (h.mem_iff.mpr hy)
    have h2 : f x ≤ foldlMaxBy f (b :: r2) := foldlMaxBy_ge f _ x (h.mem_iff.mp hx)
    omega

/-! ### The reset scan as a filter over consecutive pairs -/

theorem resets_scan_eq_pairs (c : String) (th : Int) (l : List Sample) :
    ∀ (s : Sample),
    resets_scan c th s.slot s.timestamp l =
      ((consecPairs (s :: l)).filter
          (fun pr => decide (pr.2.slot < pr.1.slot - th))).map
        (fun pr => ⟨c, pr.2.timestamp, pr.2.slot, pr.1.slot, pr.1.timestamp⟩) := by
  induction l with
  | nil => intro s; simp [resets_scan, consecPairs]
  | cons b rest ih =>
    intro s
    by_cases h : b.slot < s.slot - th
    · simp [resets_scan, consecPairs, h, ih b]
    · simp [resets_scan, consecPairs, h, ih b]

/-- Claim C2: for every client, scanning that client's samples in ascending
timestamp order with a running previous-slot cursor, a `ResetEvent` is
emitted if and only if the current slot is strictly smaller than
`prev_slot - reset_threshold` (the filter over consecutive cursor pairs);
equality and smaller decreases emit nothing (`exEqDrop` drops by exactly the
threshold and yields no reset), and the cursor advances to the current
sample whether or not a reset fired (`exCursor` fires at t = 180 against
`prev_slot = 850`, the sample after the first reset, not against 0). -/
theorem resets_fire_iff_strict_drop (df : List Sample) (th : Int) :
    (detect_slot_resets_per_client df th =
      (uniqueFirst (df.map (fun s => s.client))).flatMap (fun c =>
        ((consecPairs (List.insertionSort sampleTsLE
              (df.filter (fun s => decide (s.client = c))))).filter
            (fun pr => decide (pr.2.slot < pr.1.slot - th))).map
          (fun pr => ⟨c, pr.2.timestamp, pr.2.slot, pr.1.slot, pr.1.timestamp⟩))) ∧
    detect_slot_resets_per_client exEqDrop 100 = [] ∧
    (detect_slot_resets_per_client exCursor 100).map
        (fun r => (r.timestamp, r.new_slot, r.prev_slot, r.prev_timestamp)) =
      [(60, 0, 1000, 0), (180, 100, 850, 120)] := by
  refine ⟨?_, by decide, by decide⟩
  have hfun : client_resets df th = fun c =>
      ((consecPairs (List.insertionSort sampleTsLE
            (df.filter (fun s => decide (s.client = c))))).filter
          (fun pr => decide (pr.2.slot < pr.1.slot - th))).map
        (fun pr => ⟨c, pr.2.timestamp, pr.2.slot, pr.1.slot, pr.1.timestamp⟩) := by
    funext c
    unfold client_resets
    cases hs : List.insertionSort sampleTsLE (df.filter (fun s => decide (s.client = c))) with
    | nil => simp [consecPairs]
    | cons s rest => exact resets_scan_eq_pairs c th rest s
  unfold detect_slot_resets_per_client
  rw [hfun]

/-! ### The min-clients gate as a filter -/

theorem filter_gate_append_ite (minc : ℕ) (acc : List Cluster) (cur : Cluster) :
    acc.filter (fun c => decide (minc ≤ c.clients.card)) ++
      (if minc ≤ cur.clients.card then [cur] else []) =
    (acc ++ [cur]).filter (fun c => decide (minc ≤ c.clients.card)) := by
  rw [List.filter_append]
  congr 1
  by_cases h : minc ≤ cur.clients.card
  · simp [h]
  · simp [h]

theorem clusterGo_gate (tol : Int) (minc : ℕ) :
    ∀ (l : List ResetEvent) (acc : List Cluster) (cur : Cluster),
      clusterGo tol minc (acc.filter (fun c => decide (minc ≤ c.clients.card))) cur l =
        (clusterGo tol 0 acc cur l).filter (fun c => decide (minc ≤ c.clients.card)) := by
  intro l
  induction l with
  | nil =>
    intro acc cur
    simp only [clusterGo]
    rw [if_pos (Nat.zero_le _), filter_gate_append_ite]
  | cons r rest ih =>
    intro acc cur
    by_cases h : r.timestamp - cur.end_ ≤ tol
    · simp only [clusterGo, if_pos h]
      exact ih acc _
    · simp only [clusterGo, if_neg h]
      rw [if_pos (Nat.zero_le _), filter_gate_append_ite]
      exact ih (acc ++ [cur]) _

/-- Claim C4: every cluster the clusterer closes — the final open one
included — is emitted as a boundary if and only if its distinct-client set
has at least `min_clients` members: the gated output is exactly the
ungated (`min_clients = 0`) cluster decomposition filtered by client-set
cardinality.  Concretely, `exPair` forms one cluster of 2 distinct clients:
it is discarded with `min_clients = 3` and accepted with
`min_clients = 2`. -/
theorem cluster_gate_filters_min_clients (resets : List ResetEvent) (tm : Int) (minc : ℕ) :
    (cluster_resets_across_clients resets tm minc =
      (cluster_resets_across_clients resets tm 0).filter
        (fun c => decide (minc ≤ c.clients.card))) ∧
    cluster_resets_across_clients exPair 10 3 = [] ∧
    (cluster_resets_across_clients exPair 10 2).map (fun c => c.clients.card) = [2] := by
  refine ⟨?_, by decide, by decide⟩
  unfold cluster_resets_across_clients
  cases List.insertionSort resetTsLE resets with
  | nil => rfl
  | cons r rest =>
    exact clusterGo_gate (60 * tm) minc rest [] ⟨r.timestamp, r.timestamp, {r.client}, [r]⟩

/-- Claim C8: with `min_duration > 0` the duration filter removes exactly
the iterations with `duration_hours * 60 < min_duration`, keeps every other
iteration unchanged (membership retained for an iteration sitting exactly
on the boundary), and produces a sublist of its input — it never merges a
removed iteration's data into a neighbour. -/
theorem filter_min_duration_spec (its : List DevnetIteration) (md : Int) (h : 0 < md) :
    (filter_min_duration its md =
      its.filter (fun d => decide (¬ d.duration_hours * 60 < (md : ℚ)))) ∧
    (∀ d ∈ its, d.duration_hours * 60 = (md : ℚ) → d ∈ filter_min_duration its md) ∧
    (filter_min_duration its md).Sublist its := by
  have key : ∀ d : DevnetIteration,
      ((md : ℚ) / 60 ≤ d.duration_hours) ↔ ¬ d.duration_hours * 60 < (md : ℚ) := by
    intro d
    rw [div_le_iff₀ (by norm_num : (0:ℚ) < 60), not_lt]
  refine ⟨?_, ?_, ?_⟩
  · unfold filter_min_duration
    rw [if_pos h]
    apply List.filter_congr
    intro d _
    rw [decide_eq_decide]
    exact key d
  · intro d hd heq
    unfold filter_min_duration
    rw [if_pos h]
    apply List.mem_filter.mpr
    refine ⟨hd, ?_⟩
    rw [decide_eq_true_eq]
    exact (key d).mpr (by rw [heq]; exact lt_irrefl _)
  · unfold filter_min_duration
    rw [if_pos h]
    exact List.filter_sublist its

/-- Witness for C8: the boundary-valued iteration `exIterD`
(`duration_hours * 60 = 30` exactly) passes a 30-minute filter, and the
filter output is a sublist of its input. -/
theorem filter_min_duration_spec_witness :
    (filter_min_duration [exIterD] 30).Sublist [exIterD] :=
  (filter_min_duration_spec [exIterD] 30 (by decide)).2.2

/-! ### Chained clustering -/

theorem clusterGo_chain (tol : Int) (minc : ℕ) :
    ∀ (l : List ResetEvent) (acc : List Cluster) (cur : Cluster),
      (∀ cl ∈ acc, cl.resets ≠ [] ∧ cl.resets.Chain'
        (fun a b => a.timestamp ≤ b.timestamp ∧ b.timestamp - a.timestamp ≤ tol)) →
      cur.resets ≠ [] →
      cur.resets.Chain'
        (fun a b => a.timestamp ≤ b.timestamp ∧ b.timestamp - a.timestamp ≤ tol) →
      (∀ r0, cur.resets.getLast? = some r0 → r0.timestamp = cur.end_) →
      l.Sorted resetTsLE →
      (∀ x ∈ l, cur.end_ ≤ x.timestamp) →
      ∀ cl ∈ clusterGo tol minc acc cur l,
        cl.resets ≠ [] ∧ cl.resets.Chain'
          (fun a b => a.timestamp ≤ b.timestamp ∧ b.timestamp - a.timestamp ≤ tol) := by
  intro l
  induction l with
  | nil =>
    intro acc cur hacc hne hchain _ _ _ cl hcl
    rcases List.mem_append.mp hcl with hm | hm
    · exact hacc cl hm
    · by_cases hg : minc ≤ cur.clients.card
      · rw [if_pos hg] at hm
        rcases List.mem_singleton.mp hm with rfl
        exact ⟨hne, hchain⟩
      · rw [if_neg hg] at hm
        exact absurd hm (List.not_mem_nil cl)
  | cons r rest ih =>
    intro acc cur hacc hne hchain hlast hsort hbound
    obtain ⟨hr_rest, hsort_rest⟩ := List.sorted_cons.mp hsort
    have hbr : cur.end_ ≤ r.timestamp := hbound r (List.mem_cons_self r rest)
    by_cases h : r.timestamp - cur.end_ ≤ tol
    · rw [clusterGo, if_pos h]
      refine ih acc _ hacc (by simp) ?_ ?_ hsort_rest ?_
      · refine List.Chain'.append hchain (List.chain'_singleton _) ?_
        intro x hx y hy
        have hxts : x.timestamp = cur.end_ := hlast x (Option.mem_def.mp hx)
        have hyr : r = y := by simpa using hy
        subst hyr
        exact ⟨by rw [hxts]; exact hbr, by rw [hxts]; exact h⟩
      · intro r0 h0
        rw [List.getLast?_concat] at h0
        have hr0 := Option.some.inj h0
        rw [← hr0]
        exact (max_eq_right hbr).symm
      · intro x hx
        exact max_le (hbound x (List.mem_cons_of_mem r hx)) (hr_rest x hx)
    · rw [clusterGo, if_neg h]
      refine ih _ _ ?_ (by simp) (List.chain'_singleton _) ?_ hsort_rest ?_
      · intro cl hcl
        rcases List.mem_append.mp hcl with hm | hm
        · exact hacc cl hm
        · by_cases hg : minc ≤ cur.clients.card
          · rw [if_pos hg] at hm
            rcases List.mem_singleton.mp hm with rfl
            exact ⟨hne, hchain⟩
          · rw [if_neg hg] at hm
            exact absurd hm (List.not_mem_nil cl)
      · intro r0 h0
        simp only [List.getLast?_singleton] at h0
        have hr0 := Option.some.inj h0
        rw [← hr0]
      · intro x hx
        exact hr_rest x hx

/-- Claim C3: clustering is chained/transitive.  Every cluster the clusterer
emits has a nonempty reset list whose consecutive members ascend in time
and lie within `tolerance` of each other — since the fold visits resets in
ascending order, the predecessor's timestamp IS the running cluster `end`
when the next reset is folded, so each member was within `tolerance` of the
running end at the moment it was added.  Concretely, `exChain`'s resets at
`t0, t0+300, t0+600, t0+900` (tolerance 600 s) fold into the ONE cluster
`exChainCluster` spanning `[0, 900]`, although its first and last resets
are 900 s > 600 s apart. -/
theorem clustering_is_chained (tm : Int) (minc : ℕ) (resets : List ResetEvent) :
    (∀ cl ∈ cluster_resets_across_clients resets tm minc,
      cl.resets ≠ [] ∧ cl.resets.Chain'
        (fun a b => a.timestamp ≤ b.timestamp ∧ b.timestamp - a.timestamp ≤ 60 * tm)) ∧
    cluster_resets_across_clients exChain 10 1 = [exChainCluster] := by
  refine ⟨?_, rfl⟩
  unfold cluster_resets_across_clients
  cases hs : List.insertionSort resetTsLE resets with
  | nil => intro cl hcl; exact absurd hcl (List.not_mem_nil cl)
  | cons r rest =>
    have hsorted : (r :: rest).Sorted resetTsLE := hs ▸ List.sorted_insertionSort resetTsLE resets
    obtain ⟨hr_rest, hsort_rest⟩ := List.sorted_cons.mp hsorted
    exact clusterGo_chain (60 * tm) minc rest [] _
      (fun cl hcl => absurd hcl (List.not_mem_nil cl))
      (by simp) (List.chain'_singleton _)
      (fun r0 h0 => by
        simp only [List.getLast?_singleton] at h0
        rw [← Option.some.inj h0])
      hsort_rest
      (fun x hx => hr_rest x hx)

/-- Witness for C3: the chained example's single emitted cluster has a
nonempty reset list whose consecutive members ascend and sit within the
600 s tolerance of each other. -/
theorem clustering_is_chained_witness :
    exChainCluster.resets ≠ [] ∧ exChainCluster.resets.Chain'
      (fun a b => a.timestamp ≤ b.timestamp ∧ b.timestamp - a.timestamp ≤ 60 * 10) :=
  (clustering_is_chained 10 1 exChain).1 exChainCluster
    (by rw [(clustering_is_chained 10 1 exChain).2]
        exact List.mem_singleton_self _)

/-! ### Empty input and the single-iteration fallback -/

/-- Claim C5: an empty sample set yields zero iterations (and, being a total
function, no exception); when samples exist but no cluster passes the
`min_clients` gate (which subsumes the zero-resets case), detection returns
exactly one iteration spanning `[min timestamp, max timestamp]` of the
input, carrying the overall min and max slot, every observed client, and
the single-iteration fallback note. -/
theorem detect_fallback_single_iteration :
    (∀ (th tm : Int) (minc : ℕ), detect_devnets [] th tm minc = []) ∧
    ∀ (samples : List Sample) (th tm : Int) (minc : ℕ),
      samples ≠ [] →
      cluster_resets_across_clients
        (detect_slot_resets_per_client (List.insertionSort sampleLE samples) th)
        tm minc = [] →
      ∃ it, detect_devnets samples th tm minc = [it] ∧
        it.start_time = foldlMinBy (fun s => s.timestamp) samples ∧
        it.end_time = foldlMaxBy (fun s => s.timestamp) samples ∧
        it.start_slot = foldlMinBy (fun s => s.slot) samples ∧
        it.end_slot = foldlMaxBy (fun s => s.slot) samples ∧
        (∀ c, c ∈ it.clients ↔ c ∈ samples.map (fun s => s.client)) ∧
        it.notes = "Single iteration (no multi-client resets detected)" := by
  constructor
  · intro th tm minc
    rfl
  · intro samples th tm minc hne hcl
    have hperm : (List.insertionSort sampleLE samples).Perm samples :=
      List.perm_insertionSort sampleLE samples
    have hdfne : List.insertionSort sampleLE samples ≠ [] := by
      intro h0
      rw [h0] at hperm
      exact hne hperm.symm.eq_nil
    have hout : detect_devnets samples th tm minc = [{
        id := devnet_id_from_timestamp
          (foldlMinBy (fun s => s.timestamp) (List.insertionSort sampleLE samples)),
        start_time := foldlMinBy (fun s => s.timestamp) (List.insertionSort sampleLE samples),
        end_time := foldlMaxBy (fun s => s.timestamp) (List.insertionSort sampleLE samples),
        duration_hours := round2
          (((foldlMaxBy (fun s => s.timestamp) (List.insertionSort sampleLE samples)
             - foldlMinBy (fun s => s.timestamp) (List.insertionSort sampleLE samples) : Int) : ℚ)
            / 3600),
        start_slot := foldlMinBy (fun s => s.slot) (List.insertionSort sampleLE samples),
        end_slot := foldlMaxBy (fun s => s.slot) (List.insertionSort sampleLE samples),
        clients := uniqueFirst ((List.insertionSort sampleLE samples).map (fun s => s.client)),
        notes := "Single iteration (no multi-client resets detected)" }] := by
      simp only [detect_devnets]
      rw [if_neg (by simpa [List.isEmpty_iff] using hdfne), hcl]
      rfl
    refine ⟨_, hout, ?_, ?_, ?_, ?_, ?_, rfl⟩
    · exact foldlMinBy_perm _ _ _ hperm
    · exact foldlMaxBy_perm _ _ _ hperm
    · exact foldlMinBy_perm _ _ _ hperm
    · exact foldlMaxBy_perm _ _ _ hperm
    · intro c
      exact (mem_uniqueFirst _ _).trans (hperm.map (fun s => s.client)).mem_iff

/-- Witness for C5: `exNoReset` (one client, rising slots) is nonempty,
produces no clusters, and detection collapses it into the single fallback
iteration. -/
theorem detect_fallback_single_iteration_witness :
    ∃ it, detect_devnets exNoReset 100 10 2 = [it] ∧
      it.start_time = foldlMinBy (fun s => s.timestamp) exNoReset ∧
      it.end_time = foldlMaxBy (fun s => s.timestamp) exNoReset ∧
      it.start_slot = foldlMinBy (fun s => s.slot) exNoReset ∧
      it.end_slot = foldlMaxBy (fun s => s.slot) exNoReset ∧
      (∀ c, c ∈ it.clients ↔ c ∈ exNoReset.map (fun s => s.client)) ∧
      it.notes = "Single iteration (no multi-client resets detected)" :=
  detect_fallback_single_iteration.2 exNoReset 100 10 2 (by decide) (by decide)

/-! ### Augmentation error handling -/

/-- Claim C6 counterexample: `augment_clients_from_containers` contains no
exception handler, so a failing container query is NOT caught per-iteration:
on the two-iteration list the whole augmentation aborts with the query's
error instead of returning the iterations with unchanged client lists. -/
theorem augment_error_not_caught :
    augment_clients_from_containers failFetch [exIterA, exIterB] = Except.error "boom" ∧
    augment_clients_from_containers failFetch [exIterA, exIterB] ≠
      Except.ok [exIterA, exIterB] := by
  refine ⟨rfl, ?_⟩
  intro h
  rw [show augment_clients_from_containers failFetch [exIterA, exIterB] =
      Except.error "boom" from rfl] at h
  exact Except.noConfusion h

/-- Claim C6 amended: an error raised by the container-inventory query is
not caught inside augmentation — the first failing query makes the whole
augmentation abort with an error (so the remaining iterations are never
augmented, and no updated iteration list is returned). -/
theorem augment_error_propagates
    (fetch : Int → Int → Except String (List String))
    (its : List DevnetIteration) (it : DevnetIteration) (e : String)
    (h1 : it ∈ its) (h2 : fetch it.start_time it.end_time = Except.error e) :
    ∃ e2, augment_clients_from_containers fetch its = Except.error e2 := by
  induction its with
  | nil => exact absurd h1 (List.not_mem_nil it)
  | cons hd rest ih =>
    rcases List.mem_cons.mp h1 with rfl | hmem
    · exact ⟨e, by simp [augment_clients_from_containers, h2]⟩
    · cases hf : fetch hd.start_time hd.end_time with
      | error e3 => exact ⟨e3, by simp [augment_clients_from_containers, hf]⟩
      | ok cs =>
        obtain ⟨e2, hrec⟩ := ih hmem
        exact ⟨e2, by simp [augment_clients_from_containers, hf, hrec]⟩

/-- Witness for C6: with the always-failing oracle, augmenting the
single-iteration list aborts with an error. -/
theorem augment_error_propagates_witness :
    ∃ e2, augment_clients_from_containers failFetch [exIterA] = Except.error e2 :=
  augment_error_propagates failFetch [exIterA] exIterA "boom"
    (List.mem_singleton_self exIterA) rfl

/-- Claim C7: augmentation is additive-only and monotonic.  When
augmentation succeeds, it relates the input and output lists pointwise:
every pre-augmentation client survives into the post-augmentation list, and
the list is either untouched or replaced by the deduplicated, sorted union
of the old clients with the successfully fetched container clients. -/
theorem augment_monotonic
    (fetch : Int → Int → Except String (List String))
    (its out : List DevnetIteration)
    (h : augment_clients_from_containers fetch its = Except.ok out) :
    List.Forall₂ (fun pre post : DevnetIteration =>
      (∀ c ∈ pre.clients, c ∈ post.clients) ∧
      (post.clients = pre.clients ∨
        ∃ cs, fetch pre.start_time pre.end_time = Except.ok cs ∧
          post.clients.Nodup ∧ List.Sorted strLE post.clients ∧
          ∀ c, c ∈ post.clients ↔ (c ∈ pre.clients ∨ c ∈ cs))) its out := by
  induction its generalizing out with
  | nil =>
    simp only [augment_clients_from_containers, Except.ok.injEq] at h
    rw [← h]
    exact List.Forall₂.nil
  | cons hd rest ih =>
    rw [show augment_clients_from_containers fetch (hd :: rest) =
        (match fetch hd.start_time hd.end_time with
         | .error e => .error e
         | .ok containers =>
           match augment_clients_from_containers fetch rest with
           | .error e => .error e
           | .ok rest2 => .ok
             ((if hd.clients.length <
                  (List.insertionSort strLE ((hd.clients ++ containers).dedup)).length then
                { hd with clients :=
                    List.insertionSort strLE ((hd.clients ++ containers).dedup) }
               else hd) :: rest2)) from rfl] at h
    cases hf : fetch hd.start_time hd.end_time with
    | error e =>
      rw [hf] at h
      exact absurd h (by simp)
    | ok cs =>
      rw [hf] at h
      cases hrest : augment_clients_from_containers fetch rest with
      | error e =>
        rw [hrest] at h
        exact absurd h (by simp)
      | ok rest2 =>
        rw [hrest] at h
        simp only [Except.ok.injEq] at h
        rw [← h]
        refine List.Forall₂.cons ?_ (ih rest2 hrest)
        by_cases hlen : hd.clients.length <
            (List.insertionSort strLE ((hd.clients ++ cs).dedup)).length
        · rw [if_pos hlen]
          refine ⟨?_, Or.inr ⟨cs, hf, ?_, ?_, ?_⟩⟩
          · intro c hc
            exact ((List.perm_insertionSort strLE _).mem_iff).mpr
              (List.mem_dedup.mpr (List.mem_append_left _ hc))
          · exact ((List.perm_insertionSort strLE _).nodup_iff).mpr (List.nodup_dedup _)
          · exact List.sorted_insertionSort strLE _
          · intro c
            rw [show ({ hd with clients :=
                List.insertionSort strLE ((hd.clients ++ cs).dedup) } :
                  DevnetIteration).clients =
                List.insertionSort strLE ((hd.clients ++ cs).dedup) from rfl,
              (List.perm_insertionSort strLE _).mem_iff, List.mem_dedup,
              List.mem_append]
        · rw [if_neg hlen]
          exact ⟨fun c hc => hc, Or.inl rfl⟩

/-! ### Structural facts feeding the iteration builder -/

theorem resets_scan_ts_from_samples (c : String) (th : Int) :
    ∀ (l : List Sample) (ps pts : Int),
      ∀ r ∈ resets_scan c th ps pts l, ∃ s ∈ l, r.timestamp = s.timestamp := by
  intro l
  induction l with
  | nil => intro ps pts r hr; exact absurd hr (List.not_mem_nil r)
  | cons s rest ih =>
    intro ps pts r hr
    by_cases h : s.slot < ps - th
    · rw [resets_scan, if_pos h] at hr
      rcases List.mem_cons.mp hr with rfl | hr
      · exact ⟨s, List.mem_cons_self s rest, rfl⟩
      · obtain ⟨s2, hs2, hts⟩ := ih s.slot s.timestamp r hr
        exact ⟨s2, List.mem_cons_of_mem s hs2, hts⟩
    · rw [resets_scan, if_neg h] at hr
      obtain ⟨s2, hs2, hts⟩ := ih s.slot s.timestamp r hr
      exact ⟨s2, List.mem_cons_of_mem s hs2, hts⟩

theorem client_resets_ts_from_samples (df : List Sample) (th : Int) (c : String) :
    ∀ r ∈ client_resets df th c, ∃ s ∈ df, r.timestamp = s.timestamp := by
  intro r hr
  unfold client_resets at hr
  cases hs : List.insertionSort sampleTsLE (df.filter (fun s => decide (s.client = c))) with
  | nil => rw [hs] at hr; exact absurd hr (List.not_mem_nil r)
  | cons s0 rest =>
    rw [hs] at hr
    obtain ⟨s2, hs2, hts⟩ := resets_scan_ts_from_samples c th rest s0.slot s0.timestamp r hr
    have hmem : s2 ∈ List.insertionSort sampleTsLE
        (df.filter (fun s => decide (s.client = c))) := by
      rw [hs]
      exact List.mem_cons_of_mem s0 hs2
    have hmem2 : s2 ∈ df.filter (fun s => decide (s.client = c)) :=
      (List.perm_insertionSort sampleTsLE _).mem_iff.mp hmem
    exact ⟨s2, List.mem_of_mem_filter hmem2, hts⟩

theorem detect_resets_ts_from_samples (df : List Sample) (th : Int) :
    ∀ r ∈ detect_slot_resets_per_client df th, ∃ s ∈ df, r.timestamp = s.timestamp := by
  intro r hr
  unfold detect_slot_resets_per_client at hr
  obtain ⟨c, _, hrc⟩ := List.mem_flatMap.mp hr
  exact client_resets_ts_from_samples df th c r hrc

theorem clusterGo_struct (tol : Int) (minc : ℕ) (htol : 0 ≤ tol) (P : Int → Prop) :
    ∀ (l : List ResetEvent) (acc : List Cluster) (cur : Cluster),
      (∀ r ∈ l, P r.timestamp) →
      P cur.start → cur.start ≤ cur.end_ →
      (∀ cl ∈ acc, P cl.start ∧ cl.start ≤ cl.end_) →
      acc.Pairwise (fun a b => a.end_ < b.start) →
      (∀ cl ∈ acc, cl.end_ < cur.start) →
      (∀ cl ∈ clusterGo tol minc acc cur l, P cl.start ∧ cl.start ≤ cl.end_) ∧
        (clusterGo tol minc acc cur l).Pairwise (fun a b => a.end_ < b.start) := by
  intro l
  induction l with
  | nil =>
    intro acc cur _ hPc hsec hacc hpw hcross
    constructor
    · intro cl hcl
      rcases List.mem_append.mp hcl with hm | hm
      · exact hacc cl hm
      · by_cases hg : minc ≤ cur.clients.card
        · rw [if_pos hg] at hm
          rcases List.mem_singleton.mp hm with rfl
          exact ⟨hPc, hsec⟩
        · rw [if_neg hg] at hm
          exact absurd hm (List.not_mem_nil cl)
    · rw [clusterGo]
      by_cases hg : minc ≤ cur.clients.card
      · rw [if_pos hg]
        rw [List.pairwise_append]
        exact ⟨hpw, List.pairwise_singleton _ _,
          fun a ha b hb => (List.mem_singleton.mp hb) ▸ hcross a ha⟩
      · rw [if_neg hg]
        simpa using hpw
  | cons r rest ih =>
    intro acc cur hPl hPc hsec hacc hpw hcross
    have hPr : P r.timestamp := hPl r (List.mem_cons_self r rest)
    have hPrest : ∀ x ∈ rest, P x.timestamp :=
      fun x hx => hPl x (List.mem_cons_of_mem r hx)
    by_cases h : r.timestamp - cur.end_ ≤ tol
    · rw [clusterGo, if_pos h]
      exact ih acc _ hPrest hPc (le_trans hsec (le_max_left _ _)) hacc hpw hcross
    · rw [clusterGo, if_neg h]
      have hgt : cur.end_ < r.timestamp := by omega
      refine ih _ _ hPrest hPr le_rfl ?_ ?_ ?_
      · intro cl hcl
        rcases List.mem_append.mp hcl with hm | hm
        · exact hacc cl hm
        · by_cases hg : minc ≤ cur.clients.card
          · rw [if_pos hg] at hm
            rcases List.mem_singleton.mp hm with rfl
            exact ⟨hPc, hsec⟩
          · rw [if_neg hg] at hm
            exact absurd hm (List.not_mem_nil cl)
      · by_cases hg : minc ≤ cur.clients.card
        · rw [if_pos hg, List.pairwise_append]
          exact ⟨hpw, List.pairwise_singleton _ _,
            fun a ha b hb => (List.mem_singleton.mp hb) ▸ hcross a ha⟩
        · rw [if_neg hg]
          simpa using hpw
      · intro cl hcl
        rcases List.mem_append.mp hcl with hm | hm
        · exact lt_trans (lt_of_lt_of_le (hcross cl hm) hsec) hgt
        · by_cases hg : minc ≤ cur.clients.card
          · rw [if_pos hg] at hm
            rcases List.mem_singleton.mp hm with rfl
            exact hgt
          · rw [if_neg hg] at hm
            exact absurd hm (List.not_mem_nil cl)

theorem cluster_resets_struct (resets : List ResetEvent) (tm : Int) (minc : ℕ)
    (htm : 0 ≤ tm) (P : Int → Prop) (hP : ∀ r ∈ resets, P r.timestamp) :
    (∀ cl ∈ cluster_resets_across_clients resets tm minc,
      P cl.start ∧ cl.start ≤ cl.end_) ∧
    (cluster_resets_across_clients resets tm minc).Pairwise
      (fun a b => a.end_ < b.start) := by
  have htol : (0 : Int) ≤ 60 * tm := by omega
  unfold cluster_resets_across_clients
  cases hs : List.insertionSort resetTsLE resets with
  | nil => exact ⟨fun cl hcl => absurd hcl (List.not_mem_nil cl), List.Pairwise.nil⟩
  | cons r rest =>
    have hmem : ∀ x ∈ r :: rest, P x.timestamp := by
      intro x hx
      apply hP
      exact (List.perm_insertionSort resetTsLE resets).mem_iff.mp (hs ▸ hx)
    exact clusterGo_struct (60 * tm) minc htol P rest [] _
      (fun x hx => hmem x (List.mem_cons_of_mem r hx))
      (hmem r (List.mem_cons_self r rest)) le_rfl
      (fun cl hcl => absurd hcl (List.not_mem_nil cl))
      List.Pairwise.nil
      (fun cl hcl => absurd hcl (List.not_mem_nil cl))

theorem get_period_stats_clients_ne_nil (df : List Sample) (a b : Int)
    (h : ∃ s ∈ df, a ≤ s.timestamp ∧ s.timestamp ≤ b) :
    (get_period_stats df a b).2.2 ≠ [] := by
  obtain ⟨s, hs, h1, h2⟩ := h
  have hmem : s ∈ df.filter (fun s => decide (a ≤ s.timestamp ∧ s.timestamp ≤ b)) :=
    List.mem_filter.mpr ⟨hs, by simp [h1, h2]⟩
  have hne : df.filter (fun s => decide (a ≤ s.timestamp ∧ s.timestamp ≤ b)) ≠ [] :=
    List.ne_nil_of_mem hmem
  unfold get_period_stats
  rw [if_neg (by simpa [List.isEmpty_iff] using hne)]
  apply uniqueFirst_ne_nil
  simpa using hne

theorem adjacentIntervals_ne_nil (de : Int) :
    ∀ (sl : List Int), sl ≠ [] → adjacentIntervals de sl ≠ [] := by
  intro sl hne
  match sl with
  | [s] => simp [adjacentIntervals]
  | s :: s2 :: r => simp [adjacentIntervals]

theorem adjacentIntervals_map_fst (de : Int) :
    ∀ (sl : List Int), (adjacentIntervals de sl).map (fun p => p.1) = sl := by
  intro sl
  induction sl with
  | nil => rfl
  | cons s tail ih =>
    cases tail with
    | nil => rfl
    | cons s2 r =>
      rw [adjacentIntervals, List.map_cons, ih]

theorem adjacentIntervals_bounds (de : Int) :
    ∀ (sl : List Int), sl.Chain' (· < ·) → (∀ s ∈ sl, s ≤ de) →
      ∀ p ∈ adjacentIntervals de sl, p.1 ≤ p.2 ∧ p.2 ≤ de := by
  intro sl
  induction sl with
  | nil => intro _ _ p hp; exact absurd hp (List.not_mem_nil p)
  | cons s tail ih =>
    intro hch hbd p hp
    cases tail with
    | nil =>
      rcases List.mem_singleton.mp hp with rfl
      exact ⟨hbd s (List.mem_cons_self s []), le_rfl⟩
    | cons s2 r =>
      obtain ⟨hlt, hch2⟩ := List.chain'_cons.mp hch
      rcases List.mem_cons.mp hp with rfl | hp
      · have hs2 : s2 ≤ de := hbd s2 (List.mem_cons_of_mem s (List.mem_cons_self s2 r))
        constructor <;> omega
      · exact ih hch2 (fun x hx => hbd x (List.mem_cons_of_mem s hx)) p hp

theorem adjacentIntervals_chain (de : Int) :
    ∀ (sl : List Int),
      (adjacentIntervals de sl).Chain' (fun p q => p.2 + 1 = q.1) := by
  intro sl
  induction sl with
  | nil => exact List.chain'_nil
  | cons s tail ih =>
    cases tail with
    | nil => exact List.chain'_singleton _
    | cons s2 r =>
      show List.Chain' _ ((s, s2 - 1) :: adjacentIntervals de (s2 :: r))
      rw [List.chain'_cons']
      refine ⟨?_, ih⟩
      intro q hq
      rw [Option.mem_def] at hq
      have h1 : ((adjacentIntervals de (s2 :: r)).map (fun p => p.1)).head? = some s2 := by
        rw [adjacentIntervals_map_fst]
        rfl
      rw [List.head?_map, hq] at h1
      simp only [Option.map_some', Option.some.injEq] at h1
      show s2 - 1 + 1 = q.1
      omega

theorem adjacentIntervals_getLast (de : Int) :
    ∀ (sl : List Int), sl ≠ [] →
      ((adjacentIntervals de sl).map (fun p => p.2)).getLast? = some de := by
  intro sl
  induction sl with
  | nil => intro h; exact absurd rfl h
  | cons s tail ih =>
    intro _
    cases tail with
    | nil => rfl
    | cons s2 r =>
      have hne : adjacentIntervals de (s2 :: r) ≠ [] :=
        adjacentIntervals_ne_nil de _ (by simp)
      obtain ⟨q, qs, hq⟩ := List.exists_cons_of_ne_nil hne
      rw [adjacentIntervals, hq, List.map_cons, List.map_cons, List.getLast?_cons_cons]
      have h2 := ih (by simp)
      rw [hq, List.map_cons] at h2
      exact h2

theorem adjacentIntervals_cover (de : Int) :
    ∀ (sl : List Int) (s0 : Int), sl.head? = some s0 →
      sl.Chain' (· < ·) → (∀ s ∈ sl, s ≤ de) →
      ∀ t : Int, (∃ p ∈ adjacentIntervals de sl, p.1 ≤ t ∧ t ≤ p.2) ↔
        (s0 ≤ t ∧ t ≤ de) := by
  intro sl
  induction sl with
  | nil => intro s0 h; exact absurd h (by simp)
  | cons s tail ih =>
    intro s0 hh hch hbd t
    have hs0 : s0 = s := by simpa using hh.symm
    subst hs0
    cases tail with
    | nil =>
      show (∃ p ∈ [((s0 : Int), de)], p.1 ≤ t ∧ t ≤ p.2) ↔ _
      simp
    | cons s2 r =>
      obtain ⟨hlt, hch2⟩ := List.chain'_cons.mp hch
      have hbd2 : ∀ x ∈ s2 :: r, x ≤ de := fun x hx => hbd x (List.mem_cons_of_mem _ hx)
      have hs2de : s2 ≤ de := hbd2 s2 (List.mem_cons_self s2 r)
      have hIH := ih s2 rfl hch2 hbd2 t
      show (∃ p ∈ ((s0 : Int), s2 - 1) :: adjacentIntervals de (s2 :: r),
        p.1 ≤ t ∧ t ≤ p.2) ↔ _
      constructor
      · rintro ⟨p, hp, hp1, hp2⟩
        rcases List.mem_cons.mp hp with rfl | hp
        · simp only at hp1 hp2
          omega
        · have := hIH.mp ⟨p, hp, hp1, hp2⟩
          omega
      · rintro ⟨h1, h2⟩
        by_cases hc : t ≤ s2 - 1
        · exact ⟨(s0, s2 - 1), List.mem_cons_self _ _, h1, hc⟩
        · obtain ⟨p, hp, hps⟩ := hIH.mpr ⟨by omega, h2⟩
          exact ⟨p, List.mem_cons_of_mem _ hp, hps⟩

theorem clusters_to_iterations_map_eq (df : List Sample) (de : Int) :
    ∀ (cl : List Cluster),
      cl.Pairwise (fun a b => a.end_ < b.start) →
      (∀ c ∈ cl, c.start ≤ c.end_) →
      (∀ c ∈ cl, ∃ s ∈ df, s.timestamp = c.start) →
      (∀ s ∈ df, s.timestamp ≤ de) →
      (clusters_to_iterations df de cl).map (fun it => (it.start_time, it.end_time)) =
        adjacentIntervals de (cl.map (fun c => c.start)) := by
  intro cl
  induction cl with
  | nil => intro _ _ _ _; rfl
  | cons c rest ih =>
    intro hpw hse hsam hde
    obtain ⟨s0, hs0, hs0ts⟩ := hsam c (List.mem_cons_self c rest)
    have hs0de : s0.timestamp ≤ de := hde s0 hs0
    cases rest with
    | nil =>
      have hne := get_period_stats_clients_ne_nil df c.start de
        ⟨s0, hs0, le_of_eq hs0ts.symm, by omega⟩
      rw [clusters_to_iterations]
      rw [if_neg (by simpa [List.isEmpty_iff] using hne)]
      rfl
    | cons c2 rest2 =>
      have hlt : c.end_ < c2.start :=
        (List.pairwise_cons.mp hpw).1 c2 (List.mem_cons_self c2 rest2)
      have hsc : c.start ≤ c.end_ := hse c (List.mem_cons_self _ _)
      have hne := get_period_stats_clients_ne_nil df c.start (c2.start - 1)
        ⟨s0, hs0, le_of_eq hs0ts.symm, by omega⟩
      rw [clusters_to_iterations]
      rw [if_neg (by simpa [List.isEmpty_iff] using hne)]
      rw [List.map_cons, List.map_cons, List.map_cons, adjacentIntervals]
      congr 1
      rw [← List.map_cons (fun cc : Cluster => cc.start) c2 rest2]
      exact ih (List.pairwise_cons.mp hpw).2
        (fun x hx => hse x (List.mem_cons_of_mem _ hx))
        (fun x hx => hsam x (List.mem_cons_of_mem _ hx)) hde

theorem build_map_eq (df : List Sample) (c0 : Cluster) (crest : List Cluster)
    (hdf : df ≠ [])
    (hpw : (c0 :: crest).Pairwise (fun a b => a.end_ < b.start))
    (hse : ∀ c ∈ c0 :: crest, c.start ≤ c.end_)
    (hsam : ∀ c ∈ c0 :: crest, ∃ s ∈ df, s.timestamp = c.start) :
    (build_devnet_iterations df (c0 :: crest)).map (fun it => (it.start_time, it.end_time)) =
      (if foldlMinBy (fun s => s.timestamp) df < c0.start - 300 then
        [(foldlMinBy (fun s => s.timestamp) df, c0.start - 1)]
       else []) ++
      adjacentIntervals (foldlMaxBy (fun s => s.timestamp) df)
        ((c0 :: crest).map (fun c => c.start)) := by
  have hsorted : (c0 :: crest).Sorted clusterStartLE := by
    apply List.Pairwise.imp_of_mem ?_ hpw
    intro a b ha _ hab
    exact le_of_lt (lt_of_le_of_lt (hse a ha) hab)
  have hsorteq : List.insertionSort clusterStartLE (c0 :: crest) = c0 :: crest :=
    List.Sorted.insertionSort_eq hsorted
  have hde : ∀ s ∈ df, s.timestamp ≤ foldlMaxBy (fun s => s.timestamp) df :=
    fun s hs => foldlMaxBy_ge (fun s => s.timestamp) df s hs
  have hcti := clusters_to_iterations_map_eq df (foldlMaxBy (fun s => s.timestamp) df)
    (c0 :: crest) hpw hse hsam hde
  simp only [build_devnet_iterations]
  rw [if_neg (by simpa [List.isEmpty_iff] using hdf), hsorteq]
  rw [List.map_append, hcti]
  congr 1
  dsimp only
  by_cases hslack : foldlMinBy (fun s => s.timestamp) df < c0.start - 300
  · rw [if_pos hslack, if_pos hslack]
    obtain ⟨s0, hs0, hs0ts⟩ := foldlMinBy_attained (fun s => s.timestamp) df hdf
    have hne := get_period_stats_clients_ne_nil df
      (foldlMinBy (fun s => s.timestamp) df) (c0.start - 1)
      ⟨s0, hs0, le_of_eq hs0ts, by omega⟩
    rw [if_neg (by simpa [List.isEmpty_iff] using hne)]
    rfl
  · rw [if_neg hslack, if_neg hslack]
    rfl

theorem adjacentIntervals_head_fst (de : Int) (sl : List Int) (s00 : Int)
    (hh : sl.head? = some s00) :
    ∃ p0 rest0, adjacentIntervals de sl = p0 :: rest0 ∧ p0.1 = s00 := by
  cases sl with
  | nil => exact absurd hh (by simp)
  | cons s tail =>
    have hs : s = s00 := by simpa using hh
    subst hs
    cases tail with
    | nil => exact ⟨(s, de), [], rfl, rfl⟩
    | cons s2 r => exact ⟨(s, s2 - 1), adjacentIntervals de (s2 :: r), rfl, rfl⟩

theorem leadAdj_spec (ds de s00 : Int) (sl : List Int) (A : List (Int × Int))
    (hA : A = (if ds < s00 - 300 then [(ds, s00 - 1)] else []) ++ adjacentIntervals de sl)
    (hh : sl.head? = some s00)
    (hch : sl.Chain' (· < ·))
    (hle : ∀ s ∈ sl, s ≤ de)
    (hge : ∀ s ∈ sl, ds ≤ s) :
    A ≠ [] ∧
    A.Chain' (fun p q => p.2 + 1 = q.1) ∧
    (∀ p ∈ A, ds ≤ p.1 ∧ p.1 ≤ p.2 ∧ p.2 ≤ de) ∧
    (A.map (fun p => p.2)).getLast? = some de ∧
    ∃ p0, A.head? = some p0 ∧
      (p0.1 = ds ∨ (ds < p0.1 ∧ p0.1 - ds ≤ 300)) ∧
      ∀ t : Int, (∃ p ∈ A, p.1 ≤ t ∧ t ≤ p.2) ↔ (p0.1 ≤ t ∧ t ≤ de) := by
  have hslne : sl ≠ [] := by
    intro h0
    rw [h0] at hh
    exact Option.noConfusion hh
  have hadjne : adjacentIntervals de sl ≠ [] := adjacentIntervals_ne_nil de sl hslne
  have hs00sl : s00 ∈ sl := by
    cases sl with
    | nil => exact absurd hh (by simp)
    | cons s tail =>
      have hs : s = s00 := by simpa using hh
      exact hs ▸ List.mem_cons_self s tail
  have hs00de : s00 ≤ de := hle s00 hs00sl
  have hs00ds : ds ≤ s00 := hge s00 hs00sl
  have hmemadj : ∀ p ∈ adjacentIntervals de sl, ds ≤ p.1 ∧ p.1 ≤ p.2 ∧ p.2 ≤ de := by
    intro p hp
    have hp1 : p.1 ∈ sl := by
      rw [← adjacentIntervals_map_fst de sl]
      exact List.mem_map_of_mem _ hp
    have := adjacentIntervals_bounds de sl hch hle p hp
    exact ⟨hge p.1 hp1, this.1, this.2⟩
  obtain ⟨q0, qrest, hq, hq1⟩ := adjacentIntervals_head_fst de sl s00 hh
  have hcover := adjacentIntervals_cover de sl s00 hh hch hle
  by_cases hslack : ds < s00 - 300
  · rw [if_pos hslack] at hA
    subst hA
    refine ⟨by simp, ?_, ?_, ?_, (ds, s00 - 1), rfl, Or.inl rfl, ?_⟩
    · rw [List.singleton_append, List.chain'_cons']
      refine ⟨?_, adjacentIntervals_chain de sl⟩
      intro q hqh
      rw [Option.mem_def, hq] at hqh
      simp only [List.head?_cons, Option.some.injEq] at hqh
      rw [hqh] at hq1
      show s00 - 1 + 1 = q.1
      omega
    · intro p hp
      rw [List.singleton_append] at hp
      rcases List.mem_cons.mp hp with rfl | hp
      · exact ⟨le_rfl, by omega, by omega⟩
      · exact hmemadj p hp
    · rw [List.singleton_append, List.map_cons]
      rw [hq, List.map_cons, List.getLast?_cons_cons]
      have h4 := adjacentIntervals_getLast de sl hslne
      rw [hq, List.map_cons] at h4
      exact h4
    · intro t
      rw [List.singleton_append]
      constructor
      · rintro ⟨p, hp, hp1, hp2⟩
        rcases List.mem_cons.mp hp with rfl | hp
        · simp only at hp1 hp2
          omega
        · have := (hcover t).mp ⟨p, hp, hp1, hp2⟩
          omega
      · rintro ⟨h1, h2⟩
        by_cases hc : t ≤ s00 - 1
        · exact ⟨(ds, s00 - 1), List.mem_cons_self _ _, h1, hc⟩
        · obtain ⟨p, hp, hps⟩ := (hcover t).mpr ⟨by omega, h2⟩
          exact ⟨p, List.mem_cons_of_mem _ hp, hps⟩
  · rw [if_neg hslack] at hA
    subst hA
    rw [List.nil_append]
    refine ⟨hadjne, adjacentIntervals_chain de sl, hmemadj,
      adjacentIntervals_getLast de sl hslne, q0, by rw [hq]; rfl, ?_, ?_⟩
    · rw [hq1]
      rcases lt_or_eq_of_le hs00ds with hlt | heq
      · exact Or.inr ⟨hlt, by omega⟩
      · exact Or.inl heq.symm
    · intro t
      rw [hq1]
      exact hcover t

theorem detect_devnets_struct (samples : List Sample) (th tm : Int) (minc : ℕ)
    (hne : samples ≠ []) (htm : 0 ≤ tm) :
    detect_devnets samples th tm minc ≠ [] ∧
    (detect_devnets samples th tm minc).Chain'
      (fun a b => a.end_time + 1 = b.start_time) ∧
    (∀ it ∈ detect_devnets samples th tm minc,
      foldlMinBy (fun s => s.timestamp) samples ≤ it.start_time ∧
      it.start_time ≤ it.end_time ∧
      it.end_time ≤ foldlMaxBy (fun s => s.timestamp) samples) ∧
    ((detect_devnets samples th tm minc).map (fun it => it.end_time)).getLast? =
      some (foldlMaxBy (fun s => s.timestamp) samples) ∧
    ∃ h0, (detect_devnets samples th tm minc).head? = some h0 ∧
      (h0.start_time = foldlMinBy (fun s => s.timestamp) samples ∨
        (foldlMinBy (fun s => s.timestamp) samples < h0.start_time ∧
          h0.start_time - foldlMinBy (fun s => s.timestamp) samples ≤ 300)) ∧
      ∀ t : Int, (∃ it ∈ detect_devnets samples th tm minc,
          it.start_time ≤ t ∧ t ≤ it.end_time) ↔
        (h0.start_time ≤ t ∧ t ≤ foldlMaxBy (fun s => s.timestamp) samples) := by
  have hperm : (List.insertionSort sampleLE samples).Perm samples :=
    List.perm_insertionSort sampleLE samples
  have hdfne : List.insertionSort sampleLE samples ≠ [] := by
    intro h0
    rw [h0] at hperm
    exact hne hperm.symm.eq_nil
  rw [← foldlMinBy_perm (fun s => s.timestamp) _ _ hperm,
      ← foldlMaxBy_perm (fun s => s.timestamp) _ _ hperm]
  cases hcs : cluster_resets_across_clients
      (detect_slot_resets_per_client (List.insertionSort sampleLE samples) th) tm minc with
  | nil =>
    have hout : detect_devnets samples th tm minc = [{
        id := devnet_id_from_timestamp
          (foldlMinBy (fun s => s.timestamp) (List.insertionSort sampleLE samples)),
        start_time := foldlMinBy (fun s => s.timestamp) (List.insertionSort sampleLE samples),
        end_time := foldlMaxBy (fun s => s.timestamp) (List.insertionSort sampleLE samples),
        duration_hours := round2
          (((foldlMaxBy (fun s => s.timestamp) (List.insertionSort sampleLE samples)
             - foldlMinBy (fun s => s.timestamp) (List.insertionSort sampleLE samples) : Int) : ℚ)
            / 3600),
        start_slot := foldlMinBy (fun s => s.slot) (List.insertionSort sampleLE samples),
        end_slot := foldlMaxBy (fun s => s.slot) (List.insertionSort sampleLE samples),
        clients := uniqueFirst
          ((List.insertionSort sampleLE samples).map (fun s => s.client)),
        notes := "Single iteration (no multi-client resets detected)" }] := by
      simp only [detect_devnets]
      rw [if_neg (by simpa [List.isEmpty_iff] using hdfne), hcs]
      rfl
    rw [hout]
    have hdsde : foldlMinBy (fun s => s.timestamp) (List.insertionSort sampleLE samples) ≤
        foldlMaxBy (fun s => s.timestamp) (List.insertionSort sampleLE samples) := by
      obtain ⟨a, ha, hfa⟩ :=
        foldlMinBy_attained (fun s => s.timestamp) (List.insertionSort sampleLE samples) hdfne
      rw [hfa]
      exact foldlMaxBy_ge _ _ a ha
    refine ⟨by simp, List.chain'_singleton _, ?_, rfl, ?_⟩
    · intro it hit
      rcases List.mem_singleton.mp hit with rfl
      exact ⟨le_rfl, hdsde, le_rfl⟩
    · refine ⟨_, rfl, Or.inl rfl, ?_⟩
      intro t
      constructor
      · rintro ⟨it, hit, h1, h2⟩
        rcases List.mem_singleton.mp hit with rfl
        exact ⟨h1, h2⟩
      · intro h
        exact ⟨_, List.mem_singleton_self _, h.1, h.2⟩
  | cons c0 crest =>
    obtain ⟨hmemP, hpw⟩ := cluster_resets_struct
      (detect_slot_resets_per_client (List.insertionSort sampleLE samples) th) tm minc htm
      (fun tv => ∃ s ∈ List.insertionSort sampleLE samples, s.timestamp = tv)
      (fun r hr => by
        obtain ⟨s, hs, hts⟩ := detect_resets_ts_from_samples _ th r hr
        exact ⟨s, hs, hts.symm⟩)
    rw [hcs] at hmemP hpw
    have hse : ∀ c ∈ c0 :: crest, c.start ≤ c.end_ := fun c hc => (hmemP c hc).2
    have hsam : ∀ c ∈ c0 :: crest,
        ∃ s ∈ List.insertionSort sampleLE samples, s.timestamp = c.start :=
      fun c hc => (hmemP c hc).1
    have hout : detect_devnets samples th tm minc =
        build_devnet_iterations (List.insertionSort sampleLE samples) (c0 :: crest) := by
      simp only [detect_devnets]
      rw [if_neg (by simpa [List.isEmpty_iff] using hdfne), hcs]
      rw [if_neg (by simp)]
    have hmap := build_map_eq (List.insertionSort sampleLE samples) c0 crest hdfne hpw hse hsam
    have hstartpw : (c0 :: crest).Pairwise (fun a b => a.start < b.start) := by
      apply List.Pairwise.imp_of_mem ?_ hpw
      intro a b ha _ hab
      exact lt_of_le_of_lt (hse a ha) hab
    have hch : ((c0 :: crest).map (fun c => c.start)).Chain' (· < ·) :=
      List.Pairwise.chain' (List.pairwise_map.mpr hstartpw)
    have hle2 : ∀ s ∈ (c0 :: crest).map (fun c => c.start),
        s ≤ foldlMaxBy (fun s => s.timestamp) (List.insertionSort sampleLE samples) := by
      intro s hs
      obtain ⟨c, hc, rfl⟩ := List.mem_map.mp hs
      obtain ⟨smp, hsmp, hts⟩ := hsam c hc
      rw [← hts]
      exact foldlMaxBy_ge _ _ smp hsmp
    have hge2 : ∀ s ∈ (c0 :: crest).map (fun c => c.start),
        foldlMinBy (fun s => s.timestamp) (List.insertionSort sampleLE samples) ≤ s := by
      intro s hs
      obtain ⟨c, hc, rfl⟩ := List.mem_map.mp hs
      obtain ⟨smp, hsmp, hts⟩ := hsam c hc
      rw [← hts]
      exact foldlMinBy_le _ _ smp hsmp
    have hhead : ((c0 :: crest).map (fun c => c.start)).head? = some c0.start := rfl
    have hspec := leadAdj_spec
      (foldlMinBy (fun s => s.timestamp) (List.insertionSort sampleLE samples))
      (foldlMaxBy (fun s => s.timestamp) (List.insertionSort sampleLE samples))
      c0.start ((c0 :: crest).map (fun c => c.start)) _ rfl hhead hch hle2 hge2
    rw [← hmap] at hspec
    obtain ⟨hAne, hAchain, hAbounds, hAlast, p0, hAhead, hAfirst, hAcover⟩ := hspec
    rw [hout]
    refine ⟨?_, ?_, ?_, ?_, ?_⟩
    · intro h0
      exact hAne (by rw [h0]; rfl)
    · exact (List.chain'_map _).mp hAchain
    · intro it hit
      have hb := hAbounds (it.start_time, it.end_time) (List.mem_map_of_mem _ hit)
      exact ⟨hb.1, hb.2.1, hb.2.2⟩
    · have hmm : (build_devnet_iterations (List.insertionSort sampleLE samples)
          (c0 :: crest)).map (fun it => it.end_time) =
          ((build_devnet_iterations (List.insertionSort sampleLE samples)
            (c0 :: crest)).map (fun it => (it.start_time, it.end_time))).map
            (fun p => p.2) := by
        rw [List.map_map]
        rfl
      rw [hmm]
      exact hAlast
    · cases hh : (build_devnet_iterations (List.insertionSort sampleLE samples)
          (c0 :: crest)).head? with
      | none =>
        exfalso
        have hnil : build_devnet_iterations (List.insertionSort sampleLE samples)
            (c0 :: crest) = [] := List.head?_eq_none_iff.mp hh
        exact hAne (by rw [hnil]; rfl)
      | some h0 =>
        have hproj : (h0.start_time, h0.end_time) = p0 := by
          have h3 := hAhead
          rw [List.head?_map, hh] at h3
          simpa using h3
        have h01 : h0.start_time = p0.1 := by rw [← hproj]
        refine ⟨h0, rfl, ?_, ?_⟩
        · rw [h01]
          exact hAfirst
        · intro t
          rw [h01, ← hAcover t]
          constructor
          · rintro ⟨it, hit, h1, h2⟩
            exact ⟨(it.start_time, it.end_time), List.mem_map_of_mem _ hit, h1, h2⟩
          · rintro ⟨p, hp, h1, h2⟩
            obtain ⟨it, hit, rfl⟩ := List.mem_map.mp hp
            exact ⟨it, hit, h1, h2⟩

theorem chain_adjacent_pairwise :
    ∀ (l : List DevnetIteration),
      l.Chain' (fun a b => a.end_time + 1 = b.start_time) →
      (∀ it ∈ l, it.start_time ≤ it.end_time) →
      l.Pairwise (fun a b => a.end_time < b.start_time) := by
  intro l
  induction l with
  | nil => intro _ _; exact List.Pairwise.nil
  | cons a rest ih =>
    intro hch hbd
    obtain ⟨hlink, hch2⟩ := List.chain'_cons'.mp hch
    have hpw2 := ih hch2 (fun it hit => hbd it (List.mem_cons_of_mem a hit))
    refine List.pairwise_cons.mpr ⟨?_, hpw2⟩
    intro b hb
    cases rest with
    | nil => exact absurd hb (List.not_mem_nil b)
    | cons r0 rest2 =>
      have h0 : a.end_time + 1 = r0.start_time := hlink r0 rfl
      have hr0 : r0.start_time ≤ r0.end_time :=
        hbd r0 (List.mem_cons_of_mem a (List.mem_cons_self r0 rest2))
      rcases List.mem_cons.mp hb with rfl | hb
      · omega
      · have := (List.pairwise_cons.mp hpw2).1 b hb
        omega

/-- Claim C1 counterexample: for `exGap` the only reset cluster starts 60 s
after the data starts — inside the 5-minute leading slack — so the run
yields the single iteration `[60, 60]` while the samples span `[0, 60]`:
the minimum timestamp 0 is covered by no iteration, so the union of
iteration intervals does not cover `[min(timestamp), max(timestamp)]`. -/
theorem coverage_gap_counterexample :
    ((detect_devnets exGap 100 10 2).map (fun it => (it.start_time, it.end_time))
        = [(60, 60)] ∧
      foldlMinBy (fun s => s.timestamp) exGap = 0 ∧
      foldlMaxBy (fun s => s.timestamp) exGap = 60) ∧
    ¬ ∃ it ∈ detect_devnets exGap 100 10 2,
        it.start_time ≤ 0 ∧ (0 : Int) ≤ it.end_time := by
  exact ⟨⟨by decide, by decide, by decide⟩, by decide⟩

/-- Claim C1 amended: for every non-empty sample set (nonnegative
tolerance), the iterations of one detection run are pairwise
non-overlapping and adjacent without gaps (each `end_time` is one second
before the next `start_time`), and their union is exactly
`[first.start_time, max(timestamp)]`, where `first.start_time` lies at most
300 s (the 5-minute leading slack) after `min(timestamp)`; it equals
`min(timestamp)` unless the first boundary falls within that slack. -/
theorem detect_coverage (samples : List Sample) (th tm : Int) (minc : ℕ)
    (hne : samples ≠ []) (htm : 0 ≤ tm) :
    (detect_devnets samples th tm minc).Pairwise
      (fun a b => a.end_time < b.start_time) ∧
    (detect_devnets samples th tm minc).Chain'
      (fun a b => a.end_time + 1 = b.start_time) ∧
    ∃ h0, (detect_devnets samples th tm minc).head? = some h0 ∧
      foldlMinBy (fun s => s.timestamp) samples ≤ h0.start_time ∧
      h0.start_time - foldlMinBy (fun s => s.timestamp) samples ≤ 300 ∧
      ∀ t : Int, (∃ it ∈ detect_devnets samples th tm minc,
          it.start_time ≤ t ∧ t ≤ it.end_time) ↔
        (h0.start_time ≤ t ∧ t ≤ foldlMaxBy (fun s => s.timestamp) samples) := by
  obtain ⟨_, hchain, hbounds, _, h0, hh, hfirst, hcover⟩ :=
    detect_devnets_struct samples th tm minc hne htm
  refine ⟨chain_adjacent_pairwise _ hchain
    (fun it hit => (hbounds it hit).2.1), hchain, h0, hh, ?_, ?_, hcover⟩
  · rcases hfirst with heq | ⟨hlt, _⟩
    · exact le_of_eq heq.symm
    · exact le_of_lt hlt
  · rcases hfirst with heq | ⟨_, hle⟩
    · omega
    · exact hle

/-- Witness for C1: the `exTwo` run's three iterations are pairwise
non-overlapping. -/
theorem detect_coverage_witness :
    (detect_devnets exTwo 100 10 2).Pairwise (fun a b => a.end_time < b.start_time) :=
  (detect_coverage exTwo 100 10 2 (by decide) (by decide)).1

/-- Claim C9 counterexample: on `exTwo` the run produces the iterations
`(0, 999), (1000, 4999), (5000, 5000)`; every consecutive pair satisfies
`end_time < next start_time` (999 < 1000, 4999 < 5000), so the claim that
`iteration[i].end_time < iteration[i+1].start_time` "is false by
construction" is itself false. -/
theorem adjacency_counterexample :
    (detect_devnets exTwo 100 10 2).map (fun it => (it.start_time, it.end_time)) =
      [(0, 999), (1000, 4999), (5000, 5000)] ∧
    ¬ (detect_devnets exTwo 100 10 2).Chain'
        (fun a b => ¬ a.end_time < b.start_time) := by
  have hmap : (detect_devnets exTwo 100 10 2).map (fun it => (it.start_time, it.end_time)) =
      [(0, 999), (1000, 4999), (5000, 5000)] := by decide
  refine ⟨hmap, ?_⟩
  intro hch
  cases hout : detect_devnets exTwo 100 10 2 with
  | nil => rw [hout] at hmap; simp at hmap
  | cons i0 t1 =>
    cases t1 with
    | nil => rw [hout] at hmap; simp at hmap
    | cons i1 t2 =>
      rw [hout] at hmap hch
      simp only [List.map_cons, List.cons.injEq] at hmap
      obtain ⟨h1, h2, _⟩ := hmap
      have hrel := (List.chain'_cons.mp hch).1
      apply hrel
      rw [Prod.mk.injEq] at h1 h2
      omega

/-- Claim C9 amended: for every non-empty sample set (nonnegative
tolerance), consecutive iterations satisfy
`end_time + 1 = next start_time` — so `end_time < next start_time` HOLDS by
construction (closed-open adjacency), rather than being false; the last
iteration's `end_time` equals the maximum observed timestamp; and the first
iteration's `start_time` equals the minimum observed timestamp except when
the first boundary lies within the 5-minute slack of the data start, in
which case it exceeds it by at most 300 s. -/
theorem detect_adjacency (samples : List Sample) (th tm : Int) (minc : ℕ)
    (hne : samples ≠ []) (htm : 0 ≤ tm) :
    (detect_devnets samples th tm minc).Chain'
      (fun a b => a.end_time + 1 = b.start_time) ∧
    (detect_devnets samples th tm minc).Chain'
      (fun a b => a.end_time < b.start_time) ∧
    ((detect_devnets samples th tm minc).map (fun it => it.end_time)).getLast? =
      some (foldlMaxBy (fun s => s.timestamp) samples) ∧
    ∃ h0, (detect_devnets samples th tm minc).head? = some h0 ∧
      foldlMinBy (fun s => s.timestamp) samples ≤ h0.start_time ∧
      h0.start_time - foldlMinBy (fun s => s.timestamp) samples ≤ 300 := by
  obtain ⟨_, hchain, _, hlast, h0, hh, hfirst, _⟩ :=
    detect_devnets_struct samples th tm minc hne htm
  refine ⟨hchain, List.Chain'.imp ?_ hchain, hlast, h0, hh, ?_, ?_⟩
  · intro a b hab
    omega
  · rcases hfirst with heq | ⟨hlt, _⟩
    · exact le_of_eq heq.symm
    · exact le_of_lt hlt
  · rcases hfirst with heq | ⟨_, hle⟩
    · omega
    · exact hle

/-- Witness for C9: on `exTwo` the last iteration's end equals the maximum
observed timestamp. -/
theorem detect_adjacency_witness :
    ((detect_devnets exTwo 100 10 2).map (fun it => it.end_time)).getLast? =
      some (foldlMaxBy (fun s => s.timestamp) exTwo) :=
  (detect_adjacency exTwo 100 10 2 (by decide) (by decide)).2.2.1

/-! ### Detection never reads the instance label -/

theorem orderedInsert_forall2 (r : Sample → Sample → Prop) [DecidableRel r]
    (hr : ∀ a b a2 b2, agrees a a2 → agrees b b2 → (r a b ↔ r a2 b2)) :
    ∀ (l l2 : List Sample) (a a2 : Sample), List.Forall₂ agrees l l2 → agrees a a2 →
      List.Forall₂ agrees (List.orderedInsert r a l) (List.orderedInsert r a2 l2) := by
  intro l l2 a a2 hll haa
  induction hll with
  | nil => exact List.Forall₂.cons haa List.Forall₂.nil
  | @cons b b2 t t2 hbb hrest ih =>
    by_cases hc : r a b
    · rw [List.orderedInsert, if_pos hc, List.orderedInsert,
        if_pos ((hr a b a2 b2 haa hbb).mp hc)]
      exact List.Forall₂.cons haa (List.Forall₂.cons hbb hrest)
    · rw [List.orderedInsert, if_neg hc, List.orderedInsert,
        if_neg (fun h2 => hc ((hr a b a2 b2 haa hbb).mpr h2))]
      exact List.Forall₂.cons hbb ih

theorem insertionSort_forall2 (r : Sample → Sample → Prop) [DecidableRel r]
    (hr : ∀ a b a2 b2, agrees a a2 → agrees b b2 → (r a b ↔ r a2 b2)) :
    ∀ (l l2 : List Sample), List.Forall₂ agrees l l2 →
      List.Forall₂ agrees (List.insertionSort r l) (List.insertionSort r l2) := by
  intro l l2 hll
  induction hll with
  | nil => exact List.Forall₂.nil
  | @cons a a2 t t2 haa hrest ih =>
    exact orderedInsert_forall2 r hr _ _ _ _ ih haa

theorem sampleLE_respects_agrees :
    ∀ (a b a2 b2 : Sample), agrees a a2 → agrees b b2 → (sampleLE a b ↔ sampleLE a2 b2) := by
  intro a b a2 b2 ⟨hc, ht, _⟩ ⟨hc2, ht2, _⟩
  simp only [sampleLE, hc, ht, hc2, ht2]

theorem sampleTsLE_respects_agrees :
    ∀ (a b a2 b2 : Sample), agrees a a2 → agrees b b2 →
      (sampleTsLE a b ↔ sampleTsLE a2 b2) := by
  intro a b a2 b2 ⟨_, ht, _⟩ ⟨_, ht2, _⟩
  simp only [sampleTsLE, ht, ht2]

theorem forall2_map_client :
    ∀ (l l2 : List Sample), List.Forall₂ agrees l l2 →
      l.map (fun s => s.client) = l2.map (fun s => s.client) := by
  intro l l2 hll
  induction hll with
  | nil => rfl
  | @cons a a2 t t2 haa _ ih =>
    simp only [List.map_cons, ih, haa.1]

theorem forall2_filter (p q : Sample → Bool)
    (hp : ∀ a b, agrees a b → p a = q b) :
    ∀ (l l2 : List Sample), List.Forall₂ agrees l l2 →
      List.Forall₂ agrees (l.filter p) (l2.filter q) := by
  intro l l2 hll
  induction hll with
  | nil => exact List.Forall₂.nil
  | @cons a a2 t t2 haa hrest ih =>
    by_cases hc : p a
    · rw [List.filter_cons, if_pos hc, List.filter_cons, if_pos (hp a a2 haa ▸ hc)]
      exact List.Forall₂.cons haa ih
    · rw [List.filter_cons, if_neg hc, List.filter_cons, if_neg (hp a a2 haa ▸ hc)]
      exact ih

theorem foldl_minmax_congr (g : Int → Int → Int) (f : Sample → Int)
    (hf : ∀ a b, agrees a b → f a = f b) :
    ∀ (l l2 : List Sample), List.Forall₂ agrees l l2 → ∀ (init : Int),
      l.foldl (fun m x => g m (f x)) init = l2.foldl (fun m x => g m (f x)) init := by
  intro l l2 hll
  induction hll with
  | nil => intro init; rfl
  | @cons a a2 t t2 haa _ ih =>
    intro init
    simp only [List.foldl_cons, hf a a2 haa]
    exact ih _

theorem foldlMinBy_congr (f : Sample → Int) (hf : ∀ a b, agrees a b → f a = f b) :
    ∀ (l l2 : List Sample), List.Forall₂ agrees l l2 →
      foldlMinBy f l = foldlMinBy f l2 := by
  intro l l2 hll
  cases hll with
  | nil => rfl
  | @cons a a2 t t2 haa hrest =>
    simp only [foldlMinBy]
    rw [hf a a2 haa]
    exact foldl_minmax_congr min f hf t t2 hrest _

theorem foldlMaxBy_congr (f : Sample → Int) (hf : ∀ a b, agrees a b → f a = f b) :
    ∀ (l l2 : List Sample), List.Forall₂ agrees l l2 →
      foldlMaxBy f l = foldlMaxBy f l2 := by
  intro l l2 hll
  cases hll with
  | nil => rfl
  | @cons a a2 t t2 haa hrest =>
    simp only [foldlMaxBy]
    rw [hf a a2 haa]
    exact foldl_minmax_congr max f hf t t2 hrest _

theorem resets_scan_congr (c : String) (th : Int) :
    ∀ (l l2 : List Sample), List.Forall₂ agrees l l2 → ∀ (ps pts : Int),
      resets_scan c th ps pts l = resets_scan c th ps pts l2 := by
  intro l l2 hll
  induction hll with
  | nil => intro ps pts; rfl
  | @cons a b t t2 haa _ ih =>
    intro ps pts
    obtain ⟨_, ht, hs⟩ := haa
    rw [resets_scan, resets_scan, ← ht, ← hs]
    by_cases hc : a.slot < ps - th
    · rw [if_pos hc, if_pos hc, ih a.slot a.timestamp]
    · rw [if_neg hc, if_neg hc, ih a.slot a.timestamp]

theorem client_scan_congr (c : String) (th : Int) :
    ∀ (L1 L2 : List Sample), List.Forall₂ agrees L1 L2 →
      (match L1 with
       | [] => ([] : List ResetEvent)
       | s :: rest => resets_scan c th s.slot s.timestamp rest) =
      (match L2 with
       | [] => ([] : List ResetEvent)
       | s :: rest => resets_scan c th s.slot s.timestamp rest) := by
  intro L1 L2 h
  cases h with
  | nil => rfl
  | @cons a b t t2 haa hrest =>
    show resets_scan c th a.slot a.timestamp t = resets_scan c th b.slot b.timestamp t2
    rw [← haa.2.1, ← haa.2.2]
    exact resets_scan_congr c th t t2 hrest a.slot a.timestamp

theorem client_resets_congr (th : Int) (c : String) :
    ∀ (df df2 : List Sample), List.Forall₂ agrees df df2 →
      client_resets df th c = client_resets df2 th c := by
  intro df df2 hdd
  unfold client_resets
  exact client_scan_congr c th _ _
    (insertionSort_forall2 sampleTsLE sampleTsLE_respects_agrees _ _
      (forall2_filter (fun s => decide (s.client = c)) (fun s => decide (s.client = c))
        (fun x y hxy => by simp only [hxy.1]) df df2 hdd))

theorem detect_resets_congr (th : Int) :
    ∀ (df df2 : List Sample), List.Forall₂ agrees df df2 →
      detect_slot_resets_per_client df th = detect_slot_resets_per_client df2 th := by
  intro df df2 hdd
  unfold detect_slot_resets_per_client
  rw [forall2_map_client df df2 hdd]
  congr 1
  funext c
  exact client_resets_congr th c df df2 hdd

theorem get_period_stats_congr (a b : Int) :
    ∀ (df df2 : List Sample), List.Forall₂ agrees df df2 →
      get_period_stats df a b = get_period_stats df2 a b := by
  intro df df2 hdd
  unfold get_period_stats
  have hfil := forall2_filter
    (fun s => decide (a ≤ s.timestamp ∧ s.timestamp ≤ b))
    (fun s => decide (a ≤ s.timestamp ∧ s.timestamp ≤ b))
    (fun x y hxy => by simp only [hxy.2.1]) df df2 hdd
  have hlen := hfil.length_eq
  by_cases hemp : (df.filter (fun s => decide (a ≤ s.timestamp ∧ s.timestamp ≤ b))).isEmpty
  · rw [if_pos hemp, if_pos (by
      rw [List.isEmpty_iff, ← List.length_eq_zero] at hemp ⊢
      omega)]
  · rw [if_neg hemp, if_neg (by
      rw [List.isEmpty_iff, ← List.length_eq_zero] at hemp ⊢
      omega)]
    rw [foldlMinBy_congr (fun s => s.slot) (fun x y hxy => hxy.2.2) _ _ hfil,
      foldlMaxBy_congr (fun s => s.slot) (fun x y hxy => hxy.2.2) _ _ hfil,
      forall2_map_client _ _ hfil]

theorem clusters_to_iterations_congr (de : Int) :
    ∀ (cl : List Cluster) (df df2 : List Sample), List.Forall₂ agrees df df2 →
      clusters_to_iterations df de cl = clusters_to_iterations df2 de cl := by
  intro cl
  induction cl with
  | nil => intro df df2 _; rfl
  | cons c rest ih =>
    intro df df2 hdd
    cases rest with
    | nil =>
      conv_lhs => rw [clusters_to_iterations]
      conv_rhs => rw [clusters_to_iterations]
      rw [get_period_stats_congr c.start de df df2 hdd, ih df df2 hdd]
    | cons c2 rest2 =>
      conv_lhs => rw [clusters_to_iterations]
      conv_rhs => rw [clusters_to_iterations]
      rw [get_period_stats_congr c.start (c2.start - 1) df df2 hdd, ih df df2 hdd]

theorem build_devnet_iterations_congr :
    ∀ (clusters : List Cluster) (df df2 : List Sample), List.Forall₂ agrees df df2 →
      build_devnet_iterations df clusters = build_devnet_iterations df2 clusters := by
  intro clusters df df2 hdd
  have hlen := hdd.length_eq
  simp only [build_devnet_iterations]
  by_cases hemp : df.isEmpty
  · rw [if_pos hemp, if_pos (by
      rw [List.isEmpty_iff, ← List.length_eq_zero] at hemp ⊢
      omega)]
  · rw [if_neg hemp, if_neg (by
      rw [List.isEmpty_iff, ← List.length_eq_zero] at hemp ⊢
      omega)]
    rw [foldlMinBy_congr (fun s => s.timestamp) (fun x y hxy => hxy.2.1) df df2 hdd,
      foldlMaxBy_congr (fun s => s.timestamp) (fun x y hxy => hxy.2.1) df df2 hdd,
      clusters_to_iterations_congr _ _ df df2 hdd]
    cases hcs : List.insertionSort clusterStartLE clusters with
    | nil => rfl
    | cons c0 rest =>
      dsimp only
      rw [get_period_stats_congr _ _ df df2 hdd]

theorem isEmpty_eq_of_length_eq {α β : Type} (l : List α) (l2 : List β)
    (h : l.length = l2.length) : l.isEmpty = l2.isEmpty := by
  cases l with
  | nil =>
    cases l2 with
    | nil => rfl
    | cons b t => simp at h
  | cons a t =>
    cases l2 with
    | nil => simp at h
    | cons b t2 => rfl

/-- Claim C10: the `instance` field of samples never affects detection.  For
any two sample lists that agree pointwise on client, timestamp and slot
(differing only in their instance labels), per-client reset detection
produces identical reset events — hence identical clusters — and the whole
detection run (iteration building and the single-iteration fallback
included) produces identical iterations. -/
theorem detect_instance_independent (s1 s2 : List Sample) (th tm : Int) (minc : ℕ)
    (h : List.Forall₂ agrees s1 s2) :
    detect_slot_resets_per_client (List.insertionSort sampleLE s1) th =
      detect_slot_resets_per_client (List.insertionSort sampleLE s2) th ∧
    detect_devnets s1 th tm minc = detect_devnets s2 th tm minc := by
  have hdf : List.Forall₂ agrees (List.insertionSort sampleLE s1)
      (List.insertionSort sampleLE s2) :=
    insertionSort_forall2 sampleLE sampleLE_respects_agrees s1 s2 h
  have hlen := hdf.length_eq
  have hresets := detect_resets_congr th _ _ hdf
  refine ⟨hresets, ?_⟩
  have hempeq : (List.insertionSort sampleLE s1).isEmpty =
      (List.insertionSort sampleLE s2).isEmpty :=
    isEmpty_eq_of_length_eq _ _ hlen
  simp only [detect_devnets]
  by_cases hemp : (List.insertionSort sampleLE s1).isEmpty
  · rw [if_pos hemp, if_pos (hempeq ▸ hemp)]
  · rw [if_neg hemp, if_neg (fun h2 => hemp (hempeq.symm ▸ h2))]
    rw [hresets]
    by_cases hcl : (cluster_resets_across_clients
        (detect_slot_resets_per_client (List.insertionSort sampleLE s2) th) tm minc).isEmpty
    · rw [if_pos hcl, if_pos hcl]
      rw [foldlMinBy_congr (fun s => s.timestamp) (fun x y hxy => hxy.2.1) _ _ hdf,
        foldlMaxBy_congr (fun s => s.timestamp) (fun x y hxy => hxy.2.1) _ _ hdf,
        foldlMinBy_congr (fun s => s.slot) (fun x y hxy => hxy.2.2) _ _ hdf,
        foldlMaxBy_congr (fun s => s.slot) (fun x y hxy => hxy.2.2) _ _ hdf,
        forall2_map_client _ _ hdf]
    · rw [if_neg hcl, if_neg hcl]
      exact build_devnet_iterations_congr _ _ _ hdf

/-- Witness for C10: relabelling the instances of `exInstA` into `exInstB`
leaves the detection output unchanged. -/
theorem detect_instance_independent_witness :
    detect_slot_resets_per_client (List.insertionSort sampleLE exInstA) 100 =
      detect_slot_resets_per_client (List.insertionSort sampleLE exInstB) 100 ∧
    detect_devnets exInstA 100 10 2 = detect_devnets exInstB 100 10 2 :=
  detect_instance_independent exInstA exInstB 100 10 2
    (List.Forall₂.cons ⟨rfl, rfl, rfl⟩ (List.Forall₂.cons ⟨rfl, rfl, rfl⟩ List.Forall₂.nil))

/-- Witness for C7: augmenting `exIterA` (clients `[ream]`) with an oracle
reporting `zeam` succeeds and yields the pointwise additive relation. -/
theorem augment_monotonic_witness :
    List.Forall₂ (fun pre post : DevnetIteration =>
      (∀ c ∈ pre.clients, c ∈ post.clients) ∧
      (post.clients = pre.clients ∨
        ∃ cs, okFetch pre.start_time pre.end_time = Except.ok cs ∧
          post.clients.Nodup ∧ List.Sorted strLE post.clients ∧
          ∀ c, c ∈ post.clients ↔ (c ∈ pre.clients ∨ c ∈ cs)))
      [exIterA]
      [{ id := "pqdevnet-0", start_time := 0, end_time := 999, duration_hours := 1/4,
         start_slot := 0, end_slot := 50, clients := ["ream", "zeam"], notes := "" }] :=
  augment_monotonic okFetch [exIterA] _ rfl

end Observatory
